import Mathlib

/-!
Verification of `generate_table_types.py`.

Lines of text are modelled as `List Char` (one Python string = one list of
characters); a document is a `List (List Char)` as produced by `readlines()`
(each line keeps its trailing newline).  File input/output is abstracted away:
`clean_ddl` maps the list of input lines to the list of output lines, exactly
as the loop body of the Python function does.  The external `mysqldump`
process in `export_mysql_schema` is abstracted as its observable result
(exit code, captured stdout, captured stderr).
-/

namespace DDL

/-- ASCII whitespace, the character class trimmed by Python `str.strip()`
on the ASCII dump text. -/
def isWs (c : Char) : Bool :=
  c = ' ' || c = '\t' || c = '\n' || c = '\r' || c = '\x0b' || c = '\x0c'

/-- Python `s.lstrip()`. -/
def lstrip (l : List Char) : List Char := l.dropWhile isWs

/-- Python `s.rstrip()`. -/
def rstrip (l : List Char) : List Char := (l.reverse.dropWhile isWs).reverse

/-- Python `line.strip()` (used for `stripped_line` in `clean_ddl`). -/
def pyStrip (l : List Char) : List Char := lstrip (rstrip l)

/-- Python `s.rstrip(chars)` for a given character class `p`. -/
def pyRstripOn (p : Char → Bool) (l : List Char) : List Char :=
  (l.reverse.dropWhile p).reverse

/-- The character class of `" ,\n"`: Python `.rstrip(" ,\n")` after cutting
the line at `ENGINE=`. -/
def isSep (c : Char) : Bool := c = ' ' || c = ',' || c = '\n'

/-- Index of the first occurrence of `pat` in a list, `none` when absent.
Models Python `str.find` / `str.index` / the `in` test (`pyFind pat l`
is `some i` iff `pat in l`, and then `i = l.find(pat)`). -/
def pyFind (pat : List Char) : List Char → Option Nat
  | [] => if pat.isPrefixOf ([] : List Char) then some 0 else none
  | c :: rest =>
    if pat.isPrefixOf (c :: rest) then some 0 else (pyFind pat rest).map (· + 1)

/-- The scanning loop of `find_closing_parenthesis` (src lines 111-120):
`count` is the running parenthesis count before the current character;
the result is the offset of the closing parenthesis inside the scanned
suffix. -/
def fcpAux : List Char → Int → Option Nat
  | [], _ => none
  | c :: rest, count =>
    if c = '(' then (fcpAux rest (count + 1)).map (· + 1)
    else if c = ')' then
      if count - 1 = 0 then some 0 else (fcpAux rest (count - 1)).map (· + 1)
    else (fcpAux rest count).map (· + 1)

/-- `find_closing_parenthesis(s, start)` (src lines 111-120); Python's
`-1` result is modelled as `none`. -/
def find_closing_parenthesis (s : List Char) (start : Nat) : Option Nat :=
  (fcpAux (s.drop start) 0).map (· + start)

/- The literal tokens used by `clean_ddl`. -/

def kwVendor : List Char := ['/', '*', '!']
def kwVendorEnd : List Char := ['*', '/', ';']
def kwSet : List Char := ['S', 'E', 'T', ' ']
def kwDash : List Char := ['-', '-']
def kwEngine : List Char := "ENGINE=".toList
def kwConstraint : List Char := "CONSTRAINT".toList
def kwUnique : List Char := "UNIQUE KEY".toList
def kwPrimary : List Char := "PRIMARY KEY".toList
def kwFulltext : List Char := "FULLTEXT KEY".toList
def kwKey : List Char := "KEY ".toList
def kwGenerated : List Char := "GENERATED".toList
def kwEnumOpen : List Char := "enum(".toList
def kwSetOpen : List Char := "set(".toList

/-- src lines 54-55: `line = line.split("ENGINE=")[0].rstrip(" ,\n") + ";\n"`,
guarded by `"ENGINE=" in line` (`line.split(sep)[0]` is the text before the
first occurrence of `sep`). -/
def engineRewrite (line : List Char) : List Char :=
  match pyFind kwEngine line with
  | none => line
  | some i => pyRstripOn isSep (line.take i) ++ [';', '\n']

/-- src lines 86-88: `line = line[:line.index("GENERATED")].rstrip() + ",\n"`,
guarded by `"GENERATED" in line`. -/
def generatedRewrite (line : List Char) : List Char :=
  match pyFind kwGenerated line with
  | none => line
  | some i => rstrip (line.take i) ++ [',', '\n']

/-- src lines 91-95 and 98-102: both the `enum(` and the `set(` handler have
the same shape — find the opener, find its balanced closing parenthesis,
truncate after it and append `",\n"`; the line is left alone when no
closing parenthesis is found (`enum_end == -1`). -/
def parenTypeRewrite (pat : List Char) (line : List Char) : List Char :=
  match pyFind pat line with
  | none => line
  | some s =>
    match find_closing_parenthesis line s with
    | none => line
    | some e => line.take (e + 1) ++ [',', '\n']

/-- src lines 91-95. -/
def enumRewrite (line : List Char) : List Char := parenTypeRewrite kwEnumOpen line

/-- src lines 98-102. -/
def setRewrite (line : List Char) : List Char := parenTypeRewrite kwSetOpen line

/-- The body of the `for line in lines` loop of `clean_ddl` (src lines 42-104)
for one line: takes the `skip_block` state and the line, returns the new
state and `some rewrittenLine` when the line is appended to `cleaned_lines`
(`none` when the line is dropped by a `continue`).  The branch structure,
order, and the fact that the drop tests read `stripped_line` (computed from
the original line) while the rewrites chain on the mutated `line` variable
all mirror the source. -/
def cleanLine (skip : Bool) (line : List Char) : Bool × Option (List Char) :=
  let stripped := pyStrip line
  if kwVendor.isPrefixOf stripped && kwVendorEnd.isSuffixOf stripped then (skip, none)
  else if kwSet.isPrefixOf stripped then (skip, none)
  else if kwDash.isPrefixOf stripped then (skip, none)
  else
    let line := engineRewrite line
    if kwConstraint.isPrefixOf stripped then (skip, none)
    else if kwUnique.isPrefixOf stripped then (skip, none)
    else if kwPrimary.isPrefixOf stripped then (skip, none)
    else if kwFulltext.isPrefixOf stripped then (skip, none)
    else if kwKey.isPrefixOf stripped then (skip, none)
    else if kwVendor.isPrefixOf stripped then (true, none)
    else if skip && kwVendorEnd.isSuffixOf stripped then (false, none)
    else if skip then (skip, none)
    else
      let line := generatedRewrite line
      let line := enumRewrite line
      let line := setRewrite line
      (skip, some line)

/-- The whole loop of `clean_ddl`: fold `cleanLine` over the lines,
collecting the lines appended to `cleaned_lines`. -/
def cleanLines : List (List Char) → Bool → List (List Char)
  | [], _ => []
  | l :: rest, skip =>
    match cleanLine skip l with
    | (skip2, none) => cleanLines rest skip2
    | (skip2, some out) => out :: cleanLines rest skip2

/-- The `skip_block` state after processing a list of lines. -/
def cleanState : List (List Char) → Bool → Bool
  | [], skip => skip
  | l :: rest, skip => cleanState rest (cleanLine skip l).1

/-- `clean_ddl` (src lines 35-108) as a document transformation: the
`skip_block` flag starts `False`; reading the input file and writing the
output file are abstracted to the line lists. -/
def clean_ddl (lines : List (List Char)) : List (List Char) := cleanLines lines false

/-- The composite rewriting applied to a surviving line: the `ENGINE=` cut
(src 54-55), then the `GENERATED` cut (src 86-88), then the `enum(` and
`set(` truncations (src 91-102), in source order. -/
def rewriteLine (l : List Char) : List Char :=
  setRewrite (enumRewrite (generatedRewrite (engineRewrite l)))

/-- The drop tests performed before the `ENGINE=` rewrite (src 46-52):
single-line vendor directive, `SET ` statement, `--` comment. -/
def dropEarly (st : List Char) : Bool :=
  (kwVendor.isPrefixOf st && kwVendorEnd.isSuffixOf st) || kwSet.isPrefixOf st ||
    kwDash.isPrefixOf st

/-- The keyword drop tests performed after the `ENGINE=` rewrite (src 56-69). -/
def dropKeys (st : List Char) : Bool :=
  kwConstraint.isPrefixOf st || kwUnique.isPrefixOf st || kwPrimary.isPrefixOf st ||
    kwFulltext.isPrefixOf st || kwKey.isPrefixOf st

/-- Every leading token whose presence at the start of a stripped line
makes some rule of `clean_ddl` drop the line or enter the skip state. -/
def dropKeywords : List (List Char) :=
  [kwSet, kwDash, kwConstraint, kwUnique, kwPrimary, kwFulltext, kwKey, kwVendor]

/-! ### Model of `export_mysql_schema` (src lines 5-32)

The external `mysqldump` process is out of scope (spec section 1); it is
abstracted as its observable result.  `subprocess.run(..., check=True)`
raises `CalledProcessError` on a non-zero exit status, carrying the captured
stderr; on success the process stdout has been written to the output file. -/

structure ProcResult where
  exitCode : Nat
  procStdout : List Char
  procStderr : List Char

structure CalledProcessError where
  returncode : Nat
  stderr : List Char

/-- `subprocess.run(command, stdout=f, stderr=subprocess.PIPE, check=True)`:
on exit status 0 the output file holds the process stdout; otherwise a
`CalledProcessError` is raised. -/
def subprocessRun (r : ProcResult) : Except CalledProcessError (List Char) :=
  if r.exitCode = 0 then .ok r.procStdout
  else .error ⟨r.exitCode, r.procStderr⟩

inductive ExportOutcome where
  | success (fileContent : List Char) (printed : List Char)
  | fatal (printed : List Char) (exitStatus : Nat)
deriving DecidableEq

/-- src lines 23-32: the `try`/`except` around the single `subprocess.run`
call.  On success the schema file holds the dump's stdout and a confirmation
is printed; on `CalledProcessError` the diagnostic header and the captured
stderr are printed and the run terminates via `sys.exit(1)`.  There is no
loop around the call: the process is invoked exactly once. -/
def export_mysql_schema (outputFile : List Char) (r : ProcResult) : ExportOutcome :=
  match subprocessRun r with
  | .ok dumped => .success dumped ("Schema exported to ".toList ++ outputFile)
  | .error e => .fatal ("Error exporting schema:\n".toList ++ e.stderr) 1

/-! ### Model of `adjust_type_mappings` (src lines 123-129)

`omymodels.models.pydantic.types.types_mapping` is a process-wide Python
dict; it is modelled as a partial map from type names to type names, and
`dict.update({k: v})` as pointwise override. -/

def dictUpdate (m : List Char → Option (List Char)) (k v : List Char) :
    List Char → Option (List Char) :=
  fun x => if x = k then some v else m x

/-- src lines 123-129: `types_mapping.update({"tinyint(1)": "bool"})` then
`types_mapping.update({"enum": "str"})`, as a before/after relation on the
global table. -/
def adjust_type_mappings (m : List Char → Option (List Char)) :
    List Char → Option (List Char) :=
  dictUpdate (dictUpdate m ("tinyint(1)".toList) ("bool".toList))
    ("enum".toList) ("str".toList)

/-! ### Infrastructure: first-occurrence search -/

theorem pyFind_nil_pat (l : List Char) : pyFind [] l = some 0 := by
  cases l <;> simp [pyFind, List.isPrefixOf_iff_prefix]

theorem pyFind_some_occ {pat l : List Char} {i : Nat} (h : pyFind pat l = some i) :
    pat <+: l.drop i := by
  induction l generalizing i with
  | nil =>
    simp only [pyFind] at h
    split at h
    · rename_i hp
      rw [List.isPrefixOf_iff_prefix] at hp
      cases h; simpa using hp
    · exact absurd h (by simp)
  | cons c rest ih =>
    simp only [pyFind] at h
    split at h
    · rename_i hp
      rw [List.isPrefixOf_iff_prefix] at hp
      cases h; simpa using hp
    · rcases Option.map_eq_some'.1 h with ⟨j, hj, rfl⟩
      simpa using ih hj

theorem pyFind_some_min {pat l : List Char} {i : Nat} (h : pyFind pat l = some i) :
    ∀ j, j < i → ¬ pat <+: l.drop j := by
  induction l generalizing i with
  | nil =>
    simp only [pyFind] at h
    split at h
    · cases h; omega
    · exact absurd h (by simp)
  | cons c rest ih =>
    simp only [pyFind] at h
    split at h
    · cases h; omega
    · rename_i hp
      rcases Option.map_eq_some'.1 h with ⟨j0, hj0, rfl⟩
      intro j hj
      cases j with
      | zero =>
        simpa [List.isPrefixOf_iff_prefix] using hp
      | succ j =>
        have := ih hj0 j (by omega)
        simpa using this

theorem pyFind_none {pat l : List Char} (h : pyFind pat l = none) :
    ∀ j, ¬ pat <+: l.drop j := by
  induction l with
  | nil =>
    simp only [pyFind] at h
    split at h
    · exact absurd h (by simp)
    · rename_i hp
      rw [List.isPrefixOf_iff_prefix] at hp
      intro j hj
      exact hp (by simpa using hj)
  | cons c rest ih =>
    simp only [pyFind] at h
    split at h
    · exact absurd h (by simp)
    · rename_i hp
      have h2 : pyFind pat rest = none := by
        cases h3 : pyFind pat rest with
        | none => rfl
        | some v => rw [h3] at h; simp at h
      intro j
      cases j with
      | zero =>
        simpa [List.isPrefixOf_iff_prefix] using hp
      | succ j => simpa using ih h2 j

theorem pyFind_isSome_of {pat l : List Char} {j : Nat} (h : pat <+: l.drop j) :
    (pyFind pat l).isSome := by
  cases h2 : pyFind pat l with
  | none => exact absurd h (pyFind_none h2 j)
  | some i => rfl

theorem pyFind_eq_some_of {pat l : List Char} {i : Nat} (h1 : pat <+: l.drop i)
    (h2 : ∀ j, j < i → ¬ pat <+: l.drop j) : pyFind pat l = some i := by
  cases h3 : pyFind pat l with
  | none => exact absurd h1 (pyFind_none h3 i)
  | some k =>
    rcases Nat.lt_trichotomy k i with hlt | rfl | hgt
    · exact absurd (pyFind_some_occ h3) (h2 k hlt)
    · rfl
    · exact absurd h1 (pyFind_some_min h3 i hgt)

theorem head_mem_of_prefix {pat l : List Char} (h : pat <+: l) (hne : pat ≠ []) :
    ∃ ch ∈ pat, ch ∈ l := by
  cases pat with
  | nil => exact absurd rfl hne
  | cons a p => exact ⟨a, by simp, h.subset (by simp)⟩

theorem pyFind_none_of_disjoint {pat b : List Char} (hne : pat ≠ [])
    (hd : ∀ c ∈ pat, c ∉ b) : pyFind pat b = none := by
  cases h : pyFind pat b with
  | none => rfl
  | some i =>
    have hpre := pyFind_some_occ h
    rcases head_mem_of_prefix hpre hne with ⟨ch, hch1, hch2⟩
    exact absurd (List.drop_subset _ _ hch2) (hd ch hch1)

/-- A pattern that is a prefix of `x ++ b` but shares no character with `b`
already is a prefix of `x`. -/
theorem prefix_append_disjoint {pat x b : List Char} (h : pat <+: x ++ b)
    (hd : ∀ ch ∈ b, ch ∉ pat) : pat <+: x := by
  rcases le_or_lt pat.length x.length with hle | hlt
  · have := List.prefix_iff_eq_take.1 h
    rw [List.take_append_of_le_length hle] at this
    exact this ▸ List.take_prefix _ _
  · have hx : x <+: pat := by
      rcases List.prefix_or_prefix_of_prefix h (List.prefix_append x b) with h1 | h1
      · exact absurd h1.length_le (by omega)
      · exact h1
    rcases hx with ⟨d, rfl⟩
    have hd2 : d <+: b := (List.prefix_append_right_inj x).1 h
    cases d with
    | nil => simp at hlt
    | cons dh dt =>
      have h1 : dh ∈ b := hd2.subset (by simp)
      have h2 : dh ∈ x ++ dh :: dt := by simp
      exact absurd h2 (hd dh h1)

theorem pyFind_append_none {pat a b : List Char} (hne : pat ≠ [])
    (ha : pyFind pat a = none) (hd : ∀ ch ∈ b, ch ∉ pat) :
    pyFind pat (a ++ b) = none := by
  cases h : pyFind pat (a ++ b) with
  | none => rfl
  | some i =>
    have hpre := pyFind_some_occ h
    rcases le_or_lt i a.length with hle | hlt
    · rw [List.drop_append_of_le_length hle] at hpre
      exact absurd (prefix_append_disjoint hpre hd) (pyFind_none ha i)
    · have : (a ++ b).drop i = b.drop (i - a.length) := by
        rw [List.drop_append_eq_append_drop, List.drop_eq_nil_of_le (by omega), List.nil_append]
      rw [this] at hpre
      rcases head_mem_of_prefix hpre hne with ⟨ch, hch1, hch2⟩
      exact absurd hch1 (hd ch (List.drop_subset _ _ hch2))

/-- Containment is inherited along prefixes (contrapositive form). -/
theorem pyFind_none_of_pref {pat A B : List Char} (hAB : A <+: B)
    (hB : pyFind pat B = none) : pyFind pat A = none := by
  cases h : pyFind pat A with
  | none => rfl
  | some i =>
    have hpre := pyFind_some_occ h
    rcases hAB with ⟨r, rfl⟩
    have : A.drop i <+: (A ++ r).drop i := by
      rcases le_or_lt i A.length with hle | hlt
      · rw [List.drop_append_of_le_length hle]; exact List.prefix_append _ _
      · rw [List.drop_eq_nil_of_le (by omega)]; exact List.nil_prefix
    exact absurd (hpre.trans this) (pyFind_none hB i)

/-- There is no occurrence strictly before the first occurrence. -/
theorem pyFind_take_first_none {pat l : List Char} {i : Nat}
    (h : pyFind pat l = some i) (hne : pat ≠ []) : pyFind pat (l.take i) = none := by
  cases h2 : pyFind pat (l.take i) with
  | none => rfl
  | some j =>
    have hpre := pyFind_some_occ h2
    have hlen : pat.length ≤ (l.take i).length - j := by
      have := hpre.length_le
      simpa using this
    have hj : j < i := by
      have h1 : 1 ≤ pat.length := by
        cases pat with
        | nil => exact absurd rfl hne
        | cons a p => simp
      have h2 : (l.take i).length ≤ i := by simp
      omega
    rw [List.drop_take] at hpre
    exact absurd (hpre.trans (List.take_prefix _ _)) (pyFind_some_min h j hj)

/-- Truncating after the first occurrence and appending characters foreign to
the pattern preserves the first occurrence (or removes all occurrences when
the cut is too early). -/
theorem pyFind_take_append {pat l b : List Char} {s : Nat}
    (h : pyFind pat l = some s) (hne : pat ≠ []) (hd : ∀ ch ∈ b, ch ∉ pat) (n : Nat) :
    pyFind pat (l.take n ++ b) = if s + pat.length ≤ n then some s else none := by
  have hpre := pyFind_some_occ h
  have hsl : s + pat.length ≤ l.length := by
    have hlen := hpre.length_le
    simp at hlen
    rcases le_or_lt s l.length with h1 | h1
    · omega
    · have h2 : pat.length = 0 := by omega
      exact absurd (List.length_eq_zero.1 h2) hne
  split
  · rename_i hn
    apply pyFind_eq_some_of
    · have hs : s ≤ (l.take n).length := by
        simp
        constructor <;> omega
      rw [List.drop_append_of_le_length hs, List.drop_take]
      have h1 : pat <+: (l.drop s).take (n - s) := by
        rw [List.prefix_iff_eq_take] at hpre ⊢
        rw [List.take_take, Nat.min_eq_left (by omega)]
        exact hpre
      exact h1.trans (List.prefix_append _ _)
    · intro j hj
      intro hcon
      have hjle : j ≤ (l.take n).length := by
        simp
        constructor <;> omega
      rw [List.drop_append_of_le_length hjle, List.drop_take] at hcon
      have := prefix_append_disjoint hcon hd
      exact pyFind_some_min h j hj (this.trans (List.take_prefix _ _))
  · rename_i hn
    cases h2 : pyFind pat (l.take n ++ b) with
    | none => rfl
    | some j =>
      have hpre2 := pyFind_some_occ h2
      rcases le_or_lt j (l.take n).length with hle | hlt
      · rw [List.drop_append_of_le_length hle, List.drop_take] at hpre2
        have h3 := prefix_append_disjoint hpre2 hd
        have h4 : pat.length ≤ n - j := by
          have := h3.length_le
          simp at this
          omega
        have hlen2 : (l.take n).length ≤ n := by simp
        have h5 : j < s := by omega
        exact (pyFind_some_min h j h5 (h3.trans (List.take_prefix _ _))).elim
      · have : (l.take n ++ b).drop j = b.drop (j - (l.take n).length) := by
          rw [List.drop_append_eq_append_drop, List.drop_eq_nil_of_le (by omega),
            List.nil_append]
        rw [this] at hpre2
        rcases head_mem_of_prefix hpre2 hne with ⟨ch, hch1, hch2⟩
        exact absurd hch1 (hd ch (List.drop_subset _ _ hch2))

/-! ### Infrastructure: the balanced-parenthesis scan -/

theorem fcpAux_lt_length {l : List Char} {c : Int} {k : Nat}
    (h : fcpAux l c = some k) : k < l.length := by
  induction l generalizing c k with
  | nil => simp [fcpAux] at h
  | cons ch rest ih =>
    simp only [fcpAux] at h
    split at h
    · rcases Option.map_eq_some'.1 h with ⟨j, hj, rfl⟩
      have := ih hj
      simp
      omega
    · split at h
      · split at h
        · cases h; simp
        · rcases Option.map_eq_some'.1 h with ⟨j, hj, rfl⟩
          have := ih hj
          simp
          omega
      · rcases Option.map_eq_some'.1 h with ⟨j, hj, rfl⟩
        have := ih hj
        simp
        omega

/-- A scan over characters containing no closing parenthesis never returns. -/
theorem fcpAux_noClose_none {b : List Char} (hb : ∀ ch ∈ b, ch ≠ ')') (c : Int) :
    fcpAux b c = none := by
  induction b generalizing c with
  | nil => rfl
  | cons ch rest ih =>
    have hch : ch ≠ ')' := hb ch (by simp)
    have hrest : ∀ x ∈ rest, x ≠ ')' := fun x hx => hb x (by simp [hx])
    by_cases h1 : ch = '('
    · simp only [fcpAux, if_pos h1, ih hrest, Option.map_none']
    · simp only [fcpAux, if_neg h1, if_neg hch, ih hrest, Option.map_none']

theorem fcpAux_append_none {a b : List Char} {c : Int} (ha : fcpAux a c = none)
    (hb : ∀ ch ∈ b, ch ≠ ')') : fcpAux (a ++ b) c = none := by
  induction a generalizing c with
  | nil => simpa using fcpAux_noClose_none hb c
  | cons ch rest ih =>
    by_cases h1 : ch = '('
    · simp only [List.cons_append, fcpAux, if_pos h1, Option.map_eq_none'] at ha ⊢
      exact ih ha
    · by_cases h2 : ch = ')'
      · by_cases h3 : c - 1 = 0
        · simp only [fcpAux, if_neg h1, if_pos h2, if_pos h3] at ha
          exact absurd ha (by simp)
        · simp only [List.cons_append, fcpAux, if_neg h1, if_pos h2, if_neg h3,
            Option.map_eq_none'] at ha ⊢
          exact ih ha
      · simp only [List.cons_append, fcpAux, if_neg h1, if_neg h2,
          Option.map_eq_none'] at ha ⊢
        exact ih ha

theorem fcpAux_take_none_of_none {l : List Char} {c : Int} (h : fcpAux l c = none)
    (n : Nat) : fcpAux (l.take n) c = none := by
  induction l generalizing c n with
  | nil => simp [fcpAux]
  | cons ch rest ih =>
    cases n with
    | zero => rfl
    | succ n =>
      rw [List.take_succ_cons]
      by_cases h1 : ch = '('
      · simp only [fcpAux, if_pos h1, Option.map_eq_none'] at h ⊢
        exact ih h n
      · by_cases h2 : ch = ')'
        · by_cases h3 : c - 1 = 0
          · simp only [fcpAux, if_neg h1, if_pos h2, if_pos h3] at h
            exact absurd h (by simp)
          · simp only [fcpAux, if_neg h1, if_pos h2, if_neg h3, Option.map_eq_none'] at h ⊢
            exact ih h n
        · simp only [fcpAux, if_neg h1, if_neg h2, Option.map_eq_none'] at h ⊢
          exact ih h n

theorem fcpAux_take_none_of_some {l : List Char} {c : Int} {k : Nat}
    (h : fcpAux l c = some k) {n : Nat} (hn : n ≤ k) : fcpAux (l.take n) c = none := by
  induction l generalizing c k n with
  | nil => simp [fcpAux]
  | cons ch rest ih =>
    cases n with
    | zero => rfl
    | succ n =>
      rw [List.take_succ_cons]
      by_cases h1 : ch = '('
      · simp only [fcpAux, if_pos h1, Option.map_eq_some'] at h
        rcases h with ⟨j, hj, hjk⟩
        simp only [fcpAux, if_pos h1, Option.map_eq_none']
        exact ih hj (by omega)
      · by_cases h2 : ch = ')'
        · by_cases h3 : c - 1 = 0
          · simp only [fcpAux, if_neg h1, if_pos h2, if_pos h3, Option.some.injEq] at h
            omega
          · simp only [fcpAux, if_neg h1, if_pos h2, if_neg h3, Option.map_eq_some'] at h
            rcases h with ⟨j, hj, hjk⟩
            simp only [fcpAux, if_neg h1, if_pos h2, if_neg h3, Option.map_eq_none']
            exact ih hj (by omega)
        · simp only [fcpAux, if_neg h1, if_neg h2, Option.map_eq_some'] at h
          rcases h with ⟨j, hj, hjk⟩
          simp only [fcpAux, if_neg h1, if_neg h2, Option.map_eq_none']
          exact ih hj (by omega)

/-- The scan returns before reaching anything appended after the position it
returns at: truncating just after that position and appending anything at all
preserves the result. -/
theorem fcpAux_take_append {l : List Char} {c : Int} {k : Nat}
    (h : fcpAux l c = some k) (b : List Char) :
    fcpAux (l.take (k + 1) ++ b) c = some k := by
  induction l generalizing c k with
  | nil => simp [fcpAux] at h
  | cons ch rest ih =>
    rw [List.take_succ_cons, List.cons_append]
    by_cases h1 : ch = '('
    · simp only [fcpAux, if_pos h1, Option.map_eq_some'] at h
      rcases h with ⟨j, hj, hjk⟩
      subst hjk
      simp only [fcpAux, if_pos h1, Option.map_eq_some']
      exact ⟨j, ih hj, rfl⟩
    · by_cases h2 : ch = ')'
      · by_cases h3 : c - 1 = 0
        · simp only [fcpAux, if_neg h1, if_pos h2, if_pos h3, Option.some.injEq] at h
          subst h
          simp only [fcpAux, if_neg h1, if_pos h2, if_pos h3]
        · simp only [fcpAux, if_neg h1, if_pos h2, if_neg h3, Option.map_eq_some'] at h
          rcases h with ⟨j, hj, hjk⟩
          subst hjk
          simp only [fcpAux, if_neg h1, if_pos h2, if_neg h3, Option.map_eq_some']
          exact ⟨j, ih hj, rfl⟩
      · simp only [fcpAux, if_neg h1, if_neg h2, Option.map_eq_some'] at h
        rcases h with ⟨j, hj, hjk⟩
        subst hjk
        simp only [fcpAux, if_neg h1, if_neg h2, Option.map_eq_some']
        exact ⟨j, ih hj, rfl⟩

theorem fcpAux_append_some {a b : List Char} {c : Int} {k : Nat}
    (h : fcpAux (a ++ b) c = some k) (hk : k < a.length) : fcpAux a c = some k := by
  induction a generalizing c k with
  | nil => simp at hk
  | cons ch rest ih =>
    rw [List.cons_append] at h
    by_cases h1 : ch = '('
    · simp only [fcpAux, if_pos h1, Option.map_eq_some'] at h ⊢
      rcases h with ⟨j, hj, hjk⟩
      exact ⟨j, ih hj (by simp at hk; omega), hjk⟩
    · by_cases h2 : ch = ')'
      · by_cases h3 : c - 1 = 0
        · simpa only [fcpAux, if_neg h1, if_pos h2, if_pos h3] using h
        · simp only [fcpAux, if_neg h1, if_pos h2, if_neg h3, Option.map_eq_some'] at h ⊢
          rcases h with ⟨j, hj, hjk⟩
          exact ⟨j, ih hj (by simp at hk; omega), hjk⟩
      · simp only [fcpAux, if_neg h1, if_neg h2, Option.map_eq_some'] at h ⊢
        rcases h with ⟨j, hj, hjk⟩
        exact ⟨j, ih hj (by simp at hk; omega), hjk⟩

theorem fcpAux_append_lt {a b : List Char} {c : Int} {k : Nat}
    (h : fcpAux (a ++ b) c = some k) (hb : ∀ ch ∈ b, ch ≠ ')') : k < a.length := by
  induction a generalizing c k with
  | nil => rw [List.nil_append, fcpAux_noClose_none hb] at h; cases h
  | cons ch rest ih =>
    rw [List.cons_append] at h
    by_cases h1 : ch = '('
    · simp only [fcpAux, if_pos h1, Option.map_eq_some'] at h
      rcases h with ⟨j, hj, hjk⟩
      have := ih hj
      simp
      omega
    · by_cases h2 : ch = ')'
      · by_cases h3 : c - 1 = 0
        · simp only [fcpAux, if_neg h1, if_pos h2, if_pos h3, Option.some.injEq] at h
          simp
          omega
        · simp only [fcpAux, if_neg h1, if_pos h2, if_neg h3, Option.map_eq_some'] at h
          rcases h with ⟨j, hj, hjk⟩
          have := ih hj
          simp
          omega
      · simp only [fcpAux, if_neg h1, if_neg h2, Option.map_eq_some'] at h
        rcases h with ⟨j, hj, hjk⟩
        have := ih hj
        simp
        omega

/-- Scanning from the start of an occurrence of a pattern that contains no
closing parenthesis cannot return inside the pattern. -/
theorem fcpAux_prefix_ge {pat rest : List Char} {c : Int} {k : Nat}
    (hpat : ∀ ch ∈ pat, ch ≠ ')') (h : fcpAux (pat ++ rest) c = some k) :
    pat.length ≤ k := by
  induction pat generalizing c k with
  | nil => simp
  | cons ch p ih =>
    have hch : ch ≠ ')' := hpat ch (by simp)
    have hp : ∀ x ∈ p, x ≠ ')' := fun x hx => hpat x (by simp [hx])
    rw [List.cons_append] at h
    by_cases h1 : ch = '('
    · simp only [fcpAux, if_pos h1, Option.map_eq_some'] at h
      rcases h with ⟨j, hj, hjk⟩
      have := ih hp hj
      simp
      omega
    · simp only [fcpAux, if_neg h1, if_neg hch, Option.map_eq_some'] at h
      rcases h with ⟨j, hj, hjk⟩
      have := ih hp hj
      simp
      omega

/-! ### Infrastructure: stripping -/

theorem pyRstripOn_pref (p : Char → Bool) (l : List Char) : pyRstripOn p l <+: l := by
  have h1 : l.reverse.dropWhile p <:+ l.reverse :=
    ⟨l.reverse.takeWhile p, List.takeWhile_append_dropWhile p l.reverse⟩
  have h2 := List.reverse_prefix.2 h1
  simpa [pyRstripOn] using h2

theorem pyRstripOn_eq_append (p : Char → Bool) (l : List Char) :
    ∃ w, l = pyRstripOn p l ++ w ∧ ∀ c ∈ w, p c = true := by
  refine ⟨(l.reverse.takeWhile p).reverse, ?_, ?_⟩
  · have h : l.reverse = l.reverse.takeWhile p ++ l.reverse.dropWhile p :=
      (List.takeWhile_append_dropWhile p l.reverse).symm
    calc l = l.reverse.reverse := (List.reverse_reverse l).symm
    _ = (l.reverse.takeWhile p ++ l.reverse.dropWhile p).reverse := by rw [← h]
    _ = (l.reverse.dropWhile p).reverse ++ (l.reverse.takeWhile p).reverse := by
        rw [List.reverse_append]
    _ = pyRstripOn p l ++ (l.reverse.takeWhile p).reverse := rfl
  · intro c hc
    rw [List.mem_reverse] at hc
    exact List.mem_takeWhile_imp hc

theorem rstrip_eq_pyRstripOn (l : List Char) : rstrip l = pyRstripOn isWs l := rfl

theorem rstrip_append_pair {t : Char} (h : isWs t = false) (a : List Char) :
    rstrip (a ++ [t, '\n']) = a ++ [t] := by
  have h1 : (a ++ [t, '\n']).reverse = '\n' :: t :: a.reverse := by simp
  have h2 : ('\n' :: t :: a.reverse).dropWhile isWs = t :: a.reverse := by
    rw [List.dropWhile_cons, if_pos (by decide), List.dropWhile_cons, if_neg (by simp [h])]
  rw [rstrip, h1, h2]
  simp

theorem lstrip_append (a b : List Char) :
    lstrip (a ++ b) = if (lstrip a).isEmpty then lstrip b else lstrip a ++ b :=
  List.dropWhile_append

theorem lstrip_isEmpty_all {a : List Char} (h : (lstrip a).isEmpty = true) :
    ∀ c ∈ a, isWs c = true := by
  rw [List.isEmpty_iff] at h
  exact List.dropWhile_eq_nil_iff.1 h

theorem lstrip_of_all_ws {a : List Char} (h : ∀ c ∈ a, isWs c = true) : lstrip a = [] :=
  List.dropWhile_eq_nil_iff.2 h

theorem pyStrip_prefix_lstrip (l : List Char) : pyStrip l <+: lstrip l := by
  rcases pyRstripOn_eq_append isWs l with ⟨w, hw, hws⟩
  have hsplit : lstrip l = if (lstrip (rstrip l)).isEmpty then lstrip w
      else lstrip (rstrip l) ++ w := by
    conv_lhs => rw [show l = rstrip l ++ w from hw]
    exact lstrip_append _ _
  rw [pyStrip, hsplit]
  split
  · rename_i hemp
    rw [List.isEmpty_iff] at hemp
    rw [hemp]
    exact List.nil_prefix
  · exact List.prefix_append _ _

theorem pyFind_nil_list {pat : List Char} (h : pat ≠ []) : pyFind pat [] = none := by
  cases pat with
  | nil => exact absurd rfl h
  | cons a p => simp [pyFind, List.isPrefixOf_iff_prefix]

theorem pyFind_isSome_ws_left {pat a y : List Char} (ha : ∀ c ∈ a, isWs c = true)
    (hpat : ∀ c ∈ pat, isWs c = false) (h : (pyFind pat (a ++ y)).isSome) :
    (pyFind pat y).isSome := by
  cases hpn : pat with
  | nil => rw [pyFind_nil_pat]; rfl
  | cons p0 pt =>
    rw [← hpn]
    rw [Option.isSome_iff_exists] at h
    rcases h with ⟨j, hj⟩
    have hpre := pyFind_some_occ hj
    rcases le_or_lt a.length j with hle | hlt
    · have : (a ++ y).drop j = y.drop (j - a.length) := by
        rw [List.drop_append_eq_append_drop, List.drop_eq_nil_of_le (by omega),
          List.nil_append]
      rw [this] at hpre
      exact pyFind_isSome_of hpre
    · rw [List.drop_append_of_le_length (by omega), List.drop_eq_getElem_cons hlt,
        hpn, List.cons_append] at hpre
      rcases hpre with ⟨tail, htail⟩
      rw [List.cons_append, List.cons.injEq] at htail
      have hmem : a[j] ∈ a := List.getElem_mem hlt
      have := ha _ hmem
      rw [← htail.1] at this
      rw [hpat p0 (by simp [hpn])] at this
      cases this

theorem pyFind_isSome_ws_right {pat y w : List Char} (hw : ∀ c ∈ w, isWs c = true)
    (hpat : ∀ c ∈ pat, isWs c = false) (h : (pyFind pat (y ++ w)).isSome) :
    (pyFind pat y).isSome := by
  cases hpn : pat with
  | nil => rw [pyFind_nil_pat]; rfl
  | cons p0 pt =>
    rw [← hpn]
    have hne : pat ≠ [] := by simp [hpn]
    have hd : ∀ c ∈ w, c ∉ pat := by
      intro c hc hcp
      have h1 := hw c hc
      have h2 := hpat c hcp
      rw [h1] at h2
      cases h2
    rw [Option.isSome_iff_exists] at h
    rcases h with ⟨j, hj⟩
    have hpre := pyFind_some_occ hj
    rcases le_or_lt j y.length with hle | hlt
    · rw [List.drop_append_of_le_length hle] at hpre
      exact pyFind_isSome_of (prefix_append_disjoint hpre hd)
    · have : (y ++ w).drop j = w.drop (j - y.length) := by
        rw [List.drop_append_eq_append_drop, List.drop_eq_nil_of_le (by omega),
          List.nil_append]
      rw [this] at hpre
      rcases head_mem_of_prefix hpre hne with ⟨ch, hch1, hch2⟩
      have h1 := hw ch (List.drop_subset _ _ hch2)
      have h2 := hpat ch hch1
      rw [h1] at h2
      cases h2

/-- An occurrence of a whitespace-free pattern in a line survives stripping
the line. -/
theorem pyFind_isSome_pyStrip {pat x : List Char}
    (hpat : ∀ c ∈ pat, isWs c = false) (h : (pyFind pat x).isSome) :
    (pyFind pat (pyStrip x)).isSome := by
  rcases pyRstripOn_eq_append isWs x with ⟨w, hw, hws⟩
  rw [show x = rstrip x ++ w from hw] at h
  have h1 : (pyFind pat (rstrip x)).isSome := pyFind_isSome_ws_right hws hpat h
  have h2 : rstrip x = (rstrip x).takeWhile isWs ++ lstrip (rstrip x) :=
    (List.takeWhile_append_dropWhile isWs (rstrip x)).symm
  rw [h2] at h1
  exact pyFind_isSome_ws_left (fun c hc => List.mem_takeWhile_imp hc) hpat h1


/-! ### Characterizations of one loop iteration -/

/-- Outside a skip block the iteration either drops the line, enters the skip
state on a multi-line vendor opener, or emits the rewritten line. -/
theorem cleanLine_false_eq (l : List Char) :
    cleanLine false l =
      if dropEarly (pyStrip l) || dropKeys (pyStrip l) then (false, none)
      else if kwVendor.isPrefixOf (pyStrip l) then (true, none)
      else (false, some (rewriteLine l)) := by
  simp only [cleanLine]
  cases h2 : kwSet.isPrefixOf (pyStrip l) <;>
  cases h3 : kwDash.isPrefixOf (pyStrip l) <;>
  cases h4 : kwConstraint.isPrefixOf (pyStrip l) <;>
  cases h5 : kwUnique.isPrefixOf (pyStrip l) <;>
  cases h6 : kwPrimary.isPrefixOf (pyStrip l) <;>
  cases h7 : kwFulltext.isPrefixOf (pyStrip l) <;>
  cases h8 : kwKey.isPrefixOf (pyStrip l) <;>
  cases h9 : kwVendor.isPrefixOf (pyStrip l) <;>
  cases h10 : kwVendorEnd.isSuffixOf (pyStrip l) <;>
  simp [dropEarly, dropKeys, rewriteLine, h2, h3, h4, h5, h6, h7, h8, h9, h10]

/-- Inside a skip block every line is dropped; the state is left only by a
line that ends with the block closer and is not caught by an earlier rule. -/
theorem cleanLine_true_eq (l : List Char) :
    cleanLine true l =
      (if dropEarly (pyStrip l) || dropKeys (pyStrip l) ||
          kwVendor.isPrefixOf (pyStrip l) then true
        else if kwVendorEnd.isSuffixOf (pyStrip l) then false
        else true, none) := by
  simp only [cleanLine]
  cases h2 : kwSet.isPrefixOf (pyStrip l) <;>
  cases h3 : kwDash.isPrefixOf (pyStrip l) <;>
  cases h4 : kwConstraint.isPrefixOf (pyStrip l) <;>
  cases h5 : kwUnique.isPrefixOf (pyStrip l) <;>
  cases h6 : kwPrimary.isPrefixOf (pyStrip l) <;>
  cases h7 : kwFulltext.isPrefixOf (pyStrip l) <;>
  cases h8 : kwKey.isPrefixOf (pyStrip l) <;>
  cases h9 : kwVendor.isPrefixOf (pyStrip l) <;>
  cases h10 : kwVendorEnd.isSuffixOf (pyStrip l) <;>
  simp [dropEarly, dropKeys, h2, h3, h4, h5, h6, h7, h8, h9, h10]

/-! ### Keyword safety of rewritten lines -/

theorem dropKeywords_no_tail_chars : ∀ K ∈ dropKeywords, ';' ∉ K ∧ ',' ∉ K ∧ '\n' ∉ K := by
  decide

theorem dropKeywords_ne_nil : ∀ K ∈ dropKeywords, K ≠ [] := by decide

theorem dropKeywords_no_prefix_tail :
    ∀ K ∈ dropKeywords, ¬ K <+: [';', '\n'] ∧ ¬ K <+: [',', '\n'] := by decide

/-- A drop keyword that is visible (as a leading token after left-stripping)
on a truncated-and-terminated line was already visible on the line the
truncation came from. -/
theorem keyword_prefix_descend {K P z : List Char} {t : Char}
    (hK : K ∈ dropKeywords) (hP : P <+: z) (ht : t = ';' ∨ t = ',')
    (h : K <+: lstrip (P ++ [t, '\n'])) : K <+: lstrip z := by
  have htw : isWs t = false := by rcases ht with rfl | rfl <;> decide
  have hfacts := dropKeywords_no_tail_chars K hK
  have hne := dropKeywords_ne_nil K hK
  rw [lstrip_append] at h
  split at h
  · have hlt : lstrip [t, '\n'] = [t, '\n'] := by
      rw [lstrip, List.dropWhile_cons, if_neg (by simp [htw])]
    rw [hlt] at h
    rcases ht with rfl | rfl
    · exact absurd h (dropKeywords_no_prefix_tail K hK).1
    · exact absurd h (dropKeywords_no_prefix_tail K hK).2
  · have hd : ∀ ch ∈ [t, '\n'], ch ∉ K := by
      intro ch hch hchK
      simp only [List.mem_cons, List.not_mem_nil, or_false] at hch
      rcases hch with rfl | rfl
      · rcases ht with rfl | rfl
        · exact hfacts.1 hchK
        · exact hfacts.2.1 hchK
      · exact hfacts.2.2 hchK
    have h2 : K <+: lstrip P := prefix_append_disjoint h hd
    rcases hP with ⟨r, rfl⟩
    rw [lstrip_append]
    split
    · rename_i hemp2
      rw [List.isEmpty_iff] at hemp2
      rw [hemp2, List.prefix_nil] at h2
      exact absurd h2 hne
    · exact h2.trans (List.prefix_append _ _)

theorem engineRewrite_none {l : List Char} (h : pyFind kwEngine l = none) :
    engineRewrite l = l := by
  rw [engineRewrite, h]

theorem engineRewrite_some {l : List Char} {i : Nat} (h : pyFind kwEngine l = some i) :
    engineRewrite l = pyRstripOn isSep (l.take i) ++ [';', '\n'] := by
  rw [engineRewrite, h]

theorem generatedRewrite_none {l : List Char} (h : pyFind kwGenerated l = none) :
    generatedRewrite l = l := by
  rw [generatedRewrite, h]

theorem generatedRewrite_some {l : List Char} {i : Nat} (h : pyFind kwGenerated l = some i) :
    generatedRewrite l = rstrip (l.take i) ++ [',', '\n'] := by
  rw [generatedRewrite, h]

theorem parenTypeRewrite_no_occ {pat l : List Char} (h : pyFind pat l = none) :
    parenTypeRewrite pat l = l := by
  rw [parenTypeRewrite, h]

theorem parenTypeRewrite_noClose {pat l : List Char} {s : Nat}
    (h : pyFind pat l = some s) (h2 : find_closing_parenthesis l s = none) :
    parenTypeRewrite pat l = l := by
  simp only [parenTypeRewrite, h, h2]

theorem parenTypeRewrite_close {pat l : List Char} {s e : Nat}
    (h : pyFind pat l = some s) (h2 : find_closing_parenthesis l s = some e) :
    parenTypeRewrite pat l = l.take (e + 1) ++ [',', '\n'] := by
  simp only [parenTypeRewrite, h, h2]

theorem engineRewrite_shape (l : List Char) :
    engineRewrite l = l ∨ ∃ P, P <+: l ∧ engineRewrite l = P ++ [';', '\n'] := by
  cases h : pyFind kwEngine l with
  | none => exact Or.inl (engineRewrite_none h)
  | some i =>
    exact Or.inr ⟨pyRstripOn isSep (l.take i),
      (pyRstripOn_pref _ _).trans (List.take_prefix _ _), engineRewrite_some h⟩

theorem generatedRewrite_shape (l : List Char) :
    generatedRewrite l = l ∨ ∃ P, P <+: l ∧ generatedRewrite l = P ++ [',', '\n'] := by
  cases h : pyFind kwGenerated l with
  | none => exact Or.inl (generatedRewrite_none h)
  | some i =>
    refine Or.inr ⟨rstrip (l.take i), ?_, generatedRewrite_some h⟩
    rw [rstrip_eq_pyRstripOn]
    exact (pyRstripOn_pref _ _).trans (List.take_prefix _ _)

theorem parenTypeRewrite_shape (pat l : List Char) :
    parenTypeRewrite pat l = l ∨ ∃ P, P <+: l ∧ parenTypeRewrite pat l = P ++ [',', '\n'] := by
  cases h : pyFind pat l with
  | none => exact Or.inl (parenTypeRewrite_no_occ h)
  | some s =>
    cases h2 : find_closing_parenthesis l s with
    | none => exact Or.inl (parenTypeRewrite_noClose h h2)
    | some e => exact Or.inr ⟨l.take (e + 1), List.take_prefix _ _, parenTypeRewrite_close h h2⟩

/-- A drop keyword visible on the fully rewritten line was already visible
after mere left-stripping of the original line. -/
theorem rewriteLine_keyword_chain {K x : List Char} (hK : K ∈ dropKeywords)
    (h : K <+: pyStrip (rewriteLine x)) : K <+: lstrip x := by
  have h0 : K <+: lstrip (setRewrite (enumRewrite (generatedRewrite (engineRewrite x)))) :=
    h.trans (pyStrip_prefix_lstrip _)
  have hS : K <+: lstrip (enumRewrite (generatedRewrite (engineRewrite x))) := by
    rcases parenTypeRewrite_shape kwSetOpen
        (enumRewrite (generatedRewrite (engineRewrite x))) with heq | ⟨P, hP, heq⟩
    · rw [setRewrite, heq] at h0; exact h0
    · rw [setRewrite, heq] at h0
      exact keyword_prefix_descend hK hP (Or.inr rfl) h0
  have hN : K <+: lstrip (generatedRewrite (engineRewrite x)) := by
    rcases parenTypeRewrite_shape kwEnumOpen
        (generatedRewrite (engineRewrite x)) with heq | ⟨P, hP, heq⟩
    · rw [enumRewrite, heq] at hS; exact hS
    · rw [enumRewrite, heq] at hS
      exact keyword_prefix_descend hK hP (Or.inr rfl) hS
  have hG : K <+: lstrip (engineRewrite x) := by
    rcases generatedRewrite_shape (engineRewrite x) with heq | ⟨P, hP, heq⟩
    · rw [heq] at hN; exact hN
    · rw [heq] at hN
      exact keyword_prefix_descend hK hP (Or.inr rfl) hN
  rcases engineRewrite_shape x with heq | ⟨P, hP, heq⟩
  · rw [heq] at hG; exact hG
  · rw [heq] at hG
    exact keyword_prefix_descend hK hP (Or.inl rfl) hG

theorem not_prefix_toBool {K s : List Char} (h : ¬ K <+: s) : K.isPrefixOf s = false := by
  rw [Bool.eq_false_iff]
  intro h2
  exact h (List.isPrefixOf_iff_prefix.1 h2)

theorem prefix_of_toBool {K s : List Char} (h : K.isPrefixOf s = true) : K <+: s :=
  List.isPrefixOf_iff_prefix.1 h

theorem toBool_false_not_prefix {K s : List Char} (h : K.isPrefixOf s = false) :
    ¬ K <+: s := by
  intro hp
  have h2 := List.isPrefixOf_iff_prefix.2 hp
  rw [h2] at h
  cases h

theorem dropKeywords_no_pats : ∀ K ∈ dropKeywords,
    pyFind kwEngine K = none ∧ pyFind kwGenerated K = none ∧
      pyFind kwEnumOpen K = none ∧ pyFind kwSetOpen K = none := by decide

/-- No drop keyword becomes visible at the start of a line because of the
rewrites: a surviving line stays surviving. -/
theorem rewriteLine_keyword_safe {x : List Char}
    (hx : ∀ K ∈ dropKeywords, ¬ K <+: pyStrip x) :
    ∀ K ∈ dropKeywords, ¬ K <+: pyStrip (rewriteLine x) := by
  intro K hK h
  have hchain : K <+: lstrip x := rewriteLine_keyword_chain hK h
  rcases List.prefix_or_prefix_of_prefix hchain (pyStrip_prefix_lstrip x) with h1 | h1
  · exact hx K hK h1
  · have hcontra : ∀ pat : List Char, (∀ c ∈ pat, isWs c = false) →
        pyFind pat K = none → ¬ (pyFind pat x).isSome := by
      intro pat hws hKn hsome
      have h2 := pyFind_isSome_pyStrip hws hsome
      have h3 := pyFind_none_of_pref h1 hKn
      rw [h3] at h2
      cases h2
    cases hE : pyFind kwEngine x with
    | some i =>
      exact hcontra kwEngine (by decide) (dropKeywords_no_pats K hK).1 (by rw [hE]; rfl)
    | none =>
    have e1 : engineRewrite x = x := engineRewrite_none hE
    cases hG : pyFind kwGenerated x with
    | some i =>
      exact hcontra kwGenerated (by decide) (dropKeywords_no_pats K hK).2.1 (by rw [hG]; rfl)
    | none =>
    have e2 : generatedRewrite x = x := generatedRewrite_none hG
    cases hN : pyFind kwEnumOpen x with
    | some s =>
      exact hcontra kwEnumOpen (by decide) (dropKeywords_no_pats K hK).2.2.1 (by rw [hN]; rfl)
    | none =>
    have e3 : enumRewrite x = x := by rw [enumRewrite]; exact parenTypeRewrite_no_occ hN
    cases hS : pyFind kwSetOpen x with
    | some s =>
      exact hcontra kwSetOpen (by decide) (dropKeywords_no_pats K hK).2.2.2 (by rw [hS]; rfl)
    | none =>
    have e4 : setRewrite x = x := by rw [setRewrite]; exact parenTypeRewrite_no_occ hS
    have hid : rewriteLine x = x := by rw [rewriteLine, e1, e2, e3, e4]
    rw [hid] at h
    exact hx K hK h

/-- Bool-level packaging of `rewriteLine_keyword_safe` for the two drop tests
of `cleanLine`. -/
theorem rewriteLine_drop_safe {x : List Char}
    (h1 : (dropEarly (pyStrip x) || dropKeys (pyStrip x)) = false)
    (h2 : kwVendor.isPrefixOf (pyStrip x) = false) :
    (dropEarly (pyStrip (rewriteLine x)) || dropKeys (pyStrip (rewriteLine x))) = false ∧
      kwVendor.isPrefixOf (pyStrip (rewriteLine x)) = false := by
  simp only [dropEarly, dropKeys, Bool.or_eq_false_iff] at h1
  obtain ⟨⟨⟨hab, hset⟩, hdash⟩, ⟨⟨⟨hcon, huni⟩, hpri⟩, hful⟩, hkey⟩ := h1
  have hx : ∀ K ∈ dropKeywords, ¬ K <+: pyStrip x := by
    intro K hK
    simp only [dropKeywords, List.mem_cons, List.not_mem_nil, or_false] at hK
    rcases hK with rfl | rfl | rfl | rfl | rfl | rfl | rfl | rfl
    · exact toBool_false_not_prefix hset
    · exact toBool_false_not_prefix hdash
    · exact toBool_false_not_prefix hcon
    · exact toBool_false_not_prefix huni
    · exact toBool_false_not_prefix hpri
    · exact toBool_false_not_prefix hful
    · exact toBool_false_not_prefix hkey
    · exact toBool_false_not_prefix h2
  have hsafe := rewriteLine_keyword_safe hx
  have hv : kwVendor.isPrefixOf (pyStrip (rewriteLine x)) = false :=
    not_prefix_toBool (hsafe kwVendor (by decide))
  refine ⟨?_, hv⟩
  simp only [dropEarly, dropKeys, Bool.or_eq_false_iff]
  exact ⟨⟨⟨by rw [hv]; rfl, not_prefix_toBool (hsafe kwSet (by decide))⟩,
    not_prefix_toBool (hsafe kwDash (by decide))⟩,
    ⟨⟨⟨not_prefix_toBool (hsafe kwConstraint (by decide)),
    not_prefix_toBool (hsafe kwUnique (by decide))⟩,
    not_prefix_toBool (hsafe kwPrimary (by decide))⟩,
    not_prefix_toBool (hsafe kwFulltext (by decide))⟩,
    not_prefix_toBool (hsafe kwKey (by decide))⟩

/-! ### Absence of rewrite triggers in rewritten lines -/

theorem pyFind_append_fit {pat y b : List Char} (hne : pat ≠ [])
    (hd : ∀ ch ∈ b, ch ∉ pat) {t : Nat} (h : pyFind pat (y ++ b) = some t) :
    t + pat.length ≤ y.length ∧ pat <+: y.drop t := by
  have hpre := pyFind_some_occ h
  rcases le_or_lt t y.length with hle | hlt
  · rw [List.drop_append_of_le_length hle] at hpre
    have h2 := prefix_append_disjoint hpre hd
    have h3 := h2.length_le
    simp only [List.length_drop] at h3
    exact ⟨by omega, h2⟩
  · exfalso
    have heq : (y ++ b).drop t = b.drop (t - y.length) := by
      rw [List.drop_append_eq_append_drop, List.drop_eq_nil_of_le (by omega),
        List.nil_append]
    rw [heq] at hpre
    rcases head_mem_of_prefix hpre hne with ⟨ch, hch1, hch2⟩
    exact hd ch (List.drop_subset _ _ hch2) hch1

/-- Preservation of pattern absence across one rewrite stage of the given
truncate-and-terminate shape. -/
theorem pyFind_none_preserve {pat z z2 : List Char} {t : Char} (hne : pat ≠ [])
    (ht : t ∉ pat) (hn : '\n' ∉ pat)
    (hshape : z2 = z ∨ ∃ P, P <+: z ∧ z2 = P ++ [t, '\n'])
    (h : pyFind pat z = none) : pyFind pat z2 = none := by
  rcases hshape with rfl | ⟨P, hP, rfl⟩
  · exact h
  · apply pyFind_append_none hne (pyFind_none_of_pref hP h)
    intro ch hch
    simp only [List.mem_cons, List.not_mem_nil, or_false] at hch
    rcases hch with rfl | rfl
    · exact ht
    · exact hn

/-- After the `ENGINE=` cut no `ENGINE=` remains anywhere in the line. -/
theorem rewriteLine_no_engine (x : List Char) : pyFind kwEngine (rewriteLine x) = none := by
  have hne : kwEngine ≠ [] := by decide
  have h1 : pyFind kwEngine (engineRewrite x) = none := by
    cases h : pyFind kwEngine x with
    | none => rw [engineRewrite_none h]; exact h
    | some i =>
      rw [engineRewrite_some h]
      apply pyFind_append_none hne
        (pyFind_none_of_pref (pyRstripOn_pref _ _) (pyFind_take_first_none h hne))
      intro ch hch
      simp only [List.mem_cons, List.not_mem_nil, or_false] at hch
      rcases hch with rfl | rfl <;> decide
  have h2 : pyFind kwEngine (generatedRewrite (engineRewrite x)) = none :=
    pyFind_none_preserve hne (by decide) (by decide) (generatedRewrite_shape _) h1
  have h3 : pyFind kwEngine (enumRewrite (generatedRewrite (engineRewrite x))) = none :=
    pyFind_none_preserve hne (by decide) (by decide)
      (parenTypeRewrite_shape kwEnumOpen _) h2
  rw [rewriteLine]
  exact pyFind_none_preserve hne (by decide) (by decide)
    (parenTypeRewrite_shape kwSetOpen _) h3

/-- After the `GENERATED` cut no `GENERATED` remains anywhere in the line. -/
theorem rewriteLine_no_generated (x : List Char) :
    pyFind kwGenerated (rewriteLine x) = none := by
  have hne : kwGenerated ≠ [] := by decide
  have h2 : pyFind kwGenerated (generatedRewrite (engineRewrite x)) = none := by
    cases h : pyFind kwGenerated (engineRewrite x) with
    | none => rw [generatedRewrite_none h]; exact h
    | some i =>
      rw [generatedRewrite_some h]
      have hpfx : rstrip ((engineRewrite x).take i) <+: (engineRewrite x).take i := by
        rw [rstrip_eq_pyRstripOn]; exact pyRstripOn_pref _ _
      apply pyFind_append_none hne
        (pyFind_none_of_pref hpfx (pyFind_take_first_none h hne))
      intro ch hch
      simp only [List.mem_cons, List.not_mem_nil, or_false] at hch
      rcases hch with rfl | rfl <;> decide
  have h3 : pyFind kwGenerated (enumRewrite (generatedRewrite (engineRewrite x))) = none :=
    pyFind_none_preserve hne (by decide) (by decide)
      (parenTypeRewrite_shape kwEnumOpen _) h2
  rw [rewriteLine]
  exact pyFind_none_preserve hne (by decide) (by decide)
    (parenTypeRewrite_shape kwSetOpen _) h3

/-! ### Fixed points of the enum/set truncation -/

theorem parenFired_facts {pat l : List Char} {s e : Nat} (_hne : pat ≠ [])
    (hp : ∀ ch ∈ pat, ch ≠ ')')
    (hfind : pyFind pat l = some s) (hclose : find_closing_parenthesis l s = some e) :
    ∃ k, fcpAux (l.drop s) 0 = some k ∧ e = k + s ∧ pat.length + s ≤ e ∧ e < l.length := by
  rw [find_closing_parenthesis] at hclose
  rcases Option.map_eq_some'.1 hclose with ⟨k, hk, hks⟩
  have hpre := pyFind_some_occ hfind
  rcases hpre with ⟨rest, hrest⟩
  have hge : pat.length ≤ k := fcpAux_prefix_ge hp (by rw [hrest]; exact hk)
  have hlt : k < (l.drop s).length := fcpAux_lt_length hk
  rw [List.length_drop] at hlt
  exact ⟨k, hk, hks.symm, by omega, by omega⟩

/-- Re-running an enum/set truncation on its own output changes nothing:
the first occurrence of the opener and its balanced closing parenthesis are
both preserved by the truncation. -/
theorem parenTypeRewrite_idem {pat : List Char} (hne : pat ≠ [])
    (hcomma : ',' ∉ pat) (hnl : '\n' ∉ pat) (hp : ∀ ch ∈ pat, ch ≠ ')')
    (A : List Char) :
    parenTypeRewrite pat (parenTypeRewrite pat A) = parenTypeRewrite pat A := by
  have hd : ∀ ch ∈ ([',', '\n'] : List Char), ch ∉ pat := by
    intro ch hch
    simp only [List.mem_cons, List.not_mem_nil, or_false] at hch
    rcases hch with rfl | rfl
    · exact hcomma
    · exact hnl
  cases hfind : pyFind pat A with
  | none => rw [parenTypeRewrite_no_occ hfind, parenTypeRewrite_no_occ hfind]
  | some s =>
    cases hclose : find_closing_parenthesis A s with
    | none => rw [parenTypeRewrite_noClose hfind hclose, parenTypeRewrite_noClose hfind hclose]
    | some e =>
      rw [parenTypeRewrite_close hfind hclose]
      rcases parenFired_facts hne hp hfind hclose with ⟨k, hk, hks, hge, hlt⟩
      have hfind2 : pyFind pat (A.take (e + 1) ++ [',', '\n']) = some s := by
        rw [pyFind_take_append hfind hne hd, if_pos (by omega)]
      have hdrop : (A.take (e + 1) ++ [',', '\n']).drop s
          = (A.drop s).take (k + 1) ++ [',', '\n'] := by
        rw [List.drop_append_of_le_length (by simp only [List.length_take]; omega),
          List.drop_take]
        congr 2
        omega
      have hclose2 : find_closing_parenthesis (A.take (e + 1) ++ [',', '\n']) s = some e := by
        rw [find_closing_parenthesis, hdrop, fcpAux_take_append hk]
        simp [hks]
      rw [parenTypeRewrite_close hfind2 hclose2]
      rw [List.take_append_of_le_length (by simp only [List.length_take]; omega),
        List.take_take, Nat.min_self]

/-- Running one truncation (pattern `p1`), then another one (pattern `p2`) on
the result, yields a line on which the first truncation has become inert. -/
theorem parenTypeRewrite_cross {p1 p2 : List Char} (l2 : List Char)
    (h1ne : p1 ≠ []) (h1c : ',' ∉ p1) (h1n : '\n' ∉ p1) (h1p : ∀ ch ∈ p1, ch ≠ ')')
    (h2ne : p2 ≠ []) (h2c : ',' ∉ p2) (h2n : '\n' ∉ p2) :
    parenTypeRewrite p1 (parenTypeRewrite p2 (parenTypeRewrite p1 l2)) =
      parenTypeRewrite p2 (parenTypeRewrite p1 l2) := by
  have hd1 : ∀ ch ∈ ([',', '\n'] : List Char), ch ∉ p1 := by
    intro ch hch
    simp only [List.mem_cons, List.not_mem_nil, or_false] at hch
    rcases hch with rfl | rfl
    · exact h1c
    · exact h1n
  have hd2 : ∀ ch ∈ ([',', '\n'] : List Char), ch ∉ p2 := by
    intro ch hch
    simp only [List.mem_cons, List.not_mem_nil, or_false] at hch
    rcases hch with rfl | rfl
    · exact h2c
    · exact h2n
  have hbnc : ∀ ch ∈ ([',', '\n'] : List Char), ch ≠ ')' := by decide
  cases hfind1 : pyFind p1 l2 with
  | none =>
    rw [parenTypeRewrite_no_occ hfind1]
    cases hfind2 : pyFind p2 l2 with
    | none => rw [parenTypeRewrite_no_occ hfind2, parenTypeRewrite_no_occ hfind1]
    | some t =>
      cases hclose2 : find_closing_parenthesis l2 t with
      | none => rw [parenTypeRewrite_noClose hfind2 hclose2, parenTypeRewrite_no_occ hfind1]
      | some f =>
        rw [parenTypeRewrite_close hfind2 hclose2]
        exact parenTypeRewrite_no_occ
          (pyFind_append_none h1ne (pyFind_none_of_pref (List.take_prefix _ _) hfind1) hd1)
  | some s =>
    have hpre1 := pyFind_some_occ hfind1
    have hp1len : 0 < p1.length := List.length_pos.2 h1ne
    have hslen : s + p1.length ≤ l2.length := by
      have hl := hpre1.length_le
      simp only [List.length_drop] at hl
      omega
    cases hclose1 : find_closing_parenthesis l2 s with
    | none =>
      have hfc1 : fcpAux (l2.drop s) 0 = none := by
        rw [find_closing_parenthesis] at hclose1
        exact Option.map_eq_none'.1 hclose1
      rw [parenTypeRewrite_noClose hfind1 hclose1]
      cases hfind2 : pyFind p2 l2 with
      | none => rw [parenTypeRewrite_no_occ hfind2, parenTypeRewrite_noClose hfind1 hclose1]
      | some t =>
        cases hclose2 : find_closing_parenthesis l2 t with
        | none =>
          rw [parenTypeRewrite_noClose hfind2 hclose2,
            parenTypeRewrite_noClose hfind1 hclose1]
        | some f =>
          rw [parenTypeRewrite_close hfind2 hclose2]
          by_cases hfit : s + p1.length ≤ f + 1
          · have hfind1b : pyFind p1 (l2.take (f + 1) ++ [',', '\n']) = some s := by
              rw [pyFind_take_append hfind1 h1ne hd1, if_pos hfit]
            have hsle : s ≤ (l2.take (f + 1)).length := by
              simp only [List.length_take]
              omega
            have hclose1b :
                find_closing_parenthesis (l2.take (f + 1) ++ [',', '\n']) s = none := by
              rw [find_closing_parenthesis, List.drop_append_of_le_length hsle,
                List.drop_take, fcpAux_append_none (fcpAux_take_none_of_none hfc1 _) hbnc]
              rfl
            rw [parenTypeRewrite_noClose hfind1b hclose1b]
          · have hfind1b : pyFind p1 (l2.take (f + 1) ++ [',', '\n']) = none := by
              rw [pyFind_take_append hfind1 h1ne hd1, if_neg hfit]
            rw [parenTypeRewrite_no_occ hfind1b]
    | some e =>
      rw [parenTypeRewrite_close hfind1 hclose1]
      rcases parenFired_facts h1ne h1p hfind1 hclose1 with ⟨k1, hk1, hks1, hge1, hlt1⟩
      have hidem := parenTypeRewrite_idem h1ne h1c h1n h1p l2
      rw [parenTypeRewrite_close hfind1 hclose1] at hidem
      cases hfind2 : pyFind p2 (l2.take (e + 1) ++ [',', '\n']) with
      | none => rw [parenTypeRewrite_no_occ hfind2]; exact hidem
      | some t =>
        cases hclose2 : find_closing_parenthesis (l2.take (e + 1) ++ [',', '\n']) t with
        | none => rw [parenTypeRewrite_noClose hfind2 hclose2]; exact hidem
        | some f =>
          rw [parenTypeRewrite_close hfind2 hclose2]
          have hlen_take : (l2.take (e + 1)).length = e + 1 := by
            simp only [List.length_take]
            omega
          obtain ⟨hfit2, hpre2⟩ := pyFind_append_fit h2ne hd2 hfind2
          rw [hlen_take] at hfit2
          have hp2len : 0 < p2.length := List.length_pos.2 h2ne
          have hfe : f ≤ e ∧ t ≤ f := by
            have hclose2b := hclose2
            rw [find_closing_parenthesis] at hclose2b
            rcases Option.map_eq_some'.1 hclose2b with ⟨k2, hk2, hk2s⟩
            have hdt : (l2.take (e + 1) ++ [',', '\n']).drop t
                = (l2.take (e + 1)).drop t ++ [',', '\n'] :=
              List.drop_append_of_le_length (by omega)
            rw [hdt] at hk2
            have hklt := fcpAux_append_lt hk2 hbnc
            simp only [List.length_drop, hlen_take] at hklt
            omega
          have hl4 : (l2.take (e + 1) ++ [',', '\n']).take (f + 1) ++ [',', '\n']
              = l2.take (f + 1) ++ [',', '\n'] := by
            rw [List.take_append_of_le_length (by omega), List.take_take]
            congr 2
            omega
          rw [hl4]
          by_cases hfit : s + p1.length ≤ f + 1
          · have hfind1b : pyFind p1 (l2.take (f + 1) ++ [',', '\n']) = some s := by
              rw [pyFind_take_append hfind1 h1ne hd1, if_pos hfit]
            rcases eq_or_lt_of_le hfe.1 with heq | hflt
            · subst heq
              exact hidem
            · have hsle : s ≤ (l2.take (f + 1)).length := by
                simp only [List.length_take]
                omega
              have hclose1b :
                  find_closing_parenthesis (l2.take (f + 1) ++ [',', '\n']) s = none := by
                rw [find_closing_parenthesis, List.drop_append_of_le_length hsle,
                  List.drop_take,
                  fcpAux_append_none (fcpAux_take_none_of_some hk1 (by omega)) hbnc]
                rfl
              rw [parenTypeRewrite_noClose hfind1b hclose1b]
          · have hfind1b : pyFind p1 (l2.take (f + 1) ++ [',', '\n']) = none := by
              rw [pyFind_take_append hfind1 h1ne hd1, if_neg hfit]
            rw [parenTypeRewrite_no_occ hfind1b]

/-- The composite rewrite is idempotent on any line. -/
theorem rewriteLine_idem (x : List Char) : rewriteLine (rewriteLine x) = rewriteLine x := by
  have hE : engineRewrite (rewriteLine x) = rewriteLine x :=
    engineRewrite_none (rewriteLine_no_engine x)
  have hG : generatedRewrite (rewriteLine x) = rewriteLine x :=
    generatedRewrite_none (rewriteLine_no_generated x)
  have hN : enumRewrite (rewriteLine x) = rewriteLine x := by
    show parenTypeRewrite kwEnumOpen
        (parenTypeRewrite kwSetOpen
          (parenTypeRewrite kwEnumOpen (generatedRewrite (engineRewrite x))))
      = parenTypeRewrite kwSetOpen
          (parenTypeRewrite kwEnumOpen (generatedRewrite (engineRewrite x)))
    exact parenTypeRewrite_cross _ (by decide) (by decide) (by decide) (by decide)
      (by decide) (by decide) (by decide)
  have hS : setRewrite (rewriteLine x) = rewriteLine x := by
    show parenTypeRewrite kwSetOpen
        (parenTypeRewrite kwSetOpen
          (parenTypeRewrite kwEnumOpen (generatedRewrite (engineRewrite x))))
      = parenTypeRewrite kwSetOpen
          (parenTypeRewrite kwEnumOpen (generatedRewrite (engineRewrite x)))
    exact parenTypeRewrite_idem (by decide) (by decide) (by decide) (by decide) _
  calc rewriteLine (rewriteLine x)
      = setRewrite (enumRewrite (generatedRewrite (engineRewrite (rewriteLine x)))) := rfl
    _ = setRewrite (enumRewrite (rewriteLine x)) := by rw [hE, hG]
    _ = setRewrite (rewriteLine x) := by rw [hN]
    _ = rewriteLine x := hS

/-- Any line emitted by the loop is a fixed point of the loop body: outside a
skip block it is kept verbatim and leaves the state unchanged. -/
theorem cleanLine_some_fixed {x l : List Char} {s s2 : Bool}
    (h : cleanLine s x = (s2, some l)) : cleanLine false l = (false, some l) := by
  cases s with
  | true =>
    rw [cleanLine_true_eq] at h
    exact absurd (congrArg Prod.snd h) (by simp)
  | false =>
    rw [cleanLine_false_eq] at h
    by_cases h1 : (dropEarly (pyStrip x) || dropKeys (pyStrip x)) = true
    · rw [if_pos h1] at h
      exact absurd (congrArg Prod.snd h) (by simp)
    · rw [if_neg h1] at h
      by_cases h2 : kwVendor.isPrefixOf (pyStrip x) = true
      · rw [if_pos h2] at h
        exact absurd (congrArg Prod.snd h) (by simp)
      · rw [if_neg h2] at h
        have hl : l = rewriteLine x := by
          have h3 := congrArg Prod.snd h
          simpa using h3.symm
        have h1f : (dropEarly (pyStrip x) || dropKeys (pyStrip x)) = false :=
          Bool.eq_false_iff.2 h1
        have h2f : kwVendor.isPrefixOf (pyStrip x) = false := Bool.eq_false_iff.2 h2
        obtain ⟨hA, hB⟩ := rewriteLine_drop_safe h1f h2f
        rw [cleanLine_false_eq, hl, if_neg (by simp [hA]), if_neg (by simp [hB]),
          rewriteLine_idem]

theorem mem_cleanLines_fixed {L : List (List Char)} {s : Bool} {l : List Char}
    (h : l ∈ cleanLines L s) : cleanLine false l = (false, some l) := by
  induction L generalizing s with
  | nil => simp [cleanLines] at h
  | cons x rest ih =>
    rcases hc : cleanLine s x with ⟨s2, o⟩
    cases o with
    | none =>
      simp only [cleanLines, hc] at h
      exact ih h
    | some out =>
      simp only [cleanLines, hc, List.mem_cons] at h
      rcases h with rfl | h
      · exact cleanLine_some_fixed hc
      · exact ih h

theorem cleanLines_id_of_fixed {L : List (List Char)}
    (h : ∀ l ∈ L, cleanLine false l = (false, some l)) : cleanLines L false = L := by
  induction L with
  | nil => rfl
  | cons x rest ih =>
    have hx := h x (by simp)
    simp only [cleanLines, hx]
    rw [ih fun l hl => h l (List.mem_cons_of_mem _ hl)]

/-! ### Claim theorems -/

/-- Claim C3: the Cleaner is idempotent — applying the `clean_ddl`
line-transformation to its own output yields the output unchanged, for every
input document. -/
theorem claimC3_cleaner_idempotent (L : List (List Char)) :
    clean_ddl (clean_ddl L) = clean_ddl L := by
  show cleanLines (cleanLines L false) false = cleanLines L false
  exact cleanLines_id_of_fixed fun l hl => mem_cleanLines_fixed hl

/-- Claim C1 (counterexample): on the five-line document of the claim,
`clean_ddl` does NOT produce the claimed three lines — the column line
`  id INT PRIMARY KEY,` is not dropped, because the PRIMARY KEY rule only
matches lines whose stripped form starts with `PRIMARY KEY`. -/
theorem claimC1_counterexample :
    clean_ddl ["CREATE TABLE t (\n".toList, "  id INT PRIMARY KEY,\n".toList,
        "  flag TINYINT(1),\n".toList,
        "  CONSTRAINT fk1 FOREIGN KEY (id) REFERENCES u(id)\n".toList,
        ") ENGINE=InnoDB;\n".toList]
      ≠ ["CREATE TABLE t (\n".toList, "  flag TINYINT(1),\n".toList, ");\n".toList] := by
  decide

/-- Claim C1 (amended): on the five-line document, `clean_ddl` drops the
`CONSTRAINT` line and truncates the `ENGINE=` line, but keeps
`  id INT PRIMARY KEY,`: the output is these four lines. -/
theorem claimC1_amended :
    clean_ddl ["CREATE TABLE t (\n".toList, "  id INT PRIMARY KEY,\n".toList,
        "  flag TINYINT(1),\n".toList,
        "  CONSTRAINT fk1 FOREIGN KEY (id) REFERENCES u(id)\n".toList,
        ") ENGINE=InnoDB;\n".toList]
      = ["CREATE TABLE t (\n".toList, "  id INT PRIMARY KEY,\n".toList,
        "  flag TINYINT(1),\n".toList, ");\n".toList] := by
  decide

/-! ### Skip-block behaviour -/

theorem prefix_head_eq {a b : Char} {p q s : List Char}
    (h1 : (a :: p) <+: s) (h2 : (b :: q) <+: s) : a = b := by
  rcases h1 with ⟨t1, ht1⟩
  rcases h2 with ⟨t2, ht2⟩
  rw [← ht1, List.cons_append, List.cons_append, List.cons.injEq] at ht2
  exact ht2.1.symm

theorem isPrefixOf_false_of_heads {b a : Char} {q p st : List Char}
    (hhead : (a :: p) <+: st) (hne : b ≠ a) : (b :: q).isPrefixOf st = false := by
  rw [Bool.eq_false_iff]
  intro hb
  exact hne (prefix_head_eq (prefix_of_toBool hb) hhead)

/-- Inside a skip block a line that does not end with the closer is dropped
and the skip state persists, no matter what else the line contains. -/
theorem cleanLine_skip_stay {l : List Char}
    (h : kwVendorEnd.isSuffixOf (pyStrip l) = false) : cleanLine true l = (true, none) := by
  rw [cleanLine_true_eq]
  congr 1
  by_cases hd : (dropEarly (pyStrip l) || dropKeys (pyStrip l) ||
      kwVendor.isPrefixOf (pyStrip l)) = true
  · rw [if_pos hd]
  · rw [if_neg hd, if_neg (by simp [h])]

/-- Inside a skip block a closer line that no earlier drop rule catches exits
the skip state (and is itself dropped). -/
theorem cleanLine_skip_exit {l : List Char}
    (hd : (dropEarly (pyStrip l) || dropKeys (pyStrip l) ||
      kwVendor.isPrefixOf (pyStrip l)) = false)
    (he : kwVendorEnd.isSuffixOf (pyStrip l) = true) :
    cleanLine true l = (false, none) := by
  rw [cleanLine_true_eq, if_neg (by simp [hd]), if_pos he]

/-- Outside a skip block a multi-line vendor opener (starts with the inline
opener, does not end with the closer) is dropped and enters the skip state. -/
theorem cleanLine_opener {l : List Char}
    (hv : kwVendor.isPrefixOf (pyStrip l) = true)
    (he : kwVendorEnd.isSuffixOf (pyStrip l) = false) :
    cleanLine false l = (true, none) := by
  have hhead : ('/' :: ['*', '!']) <+: pyStrip l := prefix_of_toBool hv
  have hd : (dropEarly (pyStrip l) || dropKeys (pyStrip l)) = false := by
    simp only [dropEarly, dropKeys, Bool.or_eq_false_iff]
    refine ⟨⟨⟨by rw [he]; simp, ?_⟩, ?_⟩, ⟨⟨⟨?_, ?_⟩, ?_⟩, ?_⟩, ?_⟩
    · exact isPrefixOf_false_of_heads hhead (by decide)
    · exact isPrefixOf_false_of_heads hhead (by decide)
    · exact isPrefixOf_false_of_heads hhead (by decide)
    · exact isPrefixOf_false_of_heads hhead (by decide)
    · exact isPrefixOf_false_of_heads hhead (by decide)
    · exact isPrefixOf_false_of_heads hhead (by decide)
    · exact isPrefixOf_false_of_heads hhead (by decide)
  rw [cleanLine_false_eq, if_neg (by simp [hd]), if_pos hv]

/-- A run of lines none of which ends with the block closer keeps the skip
state and produces no output. -/
theorem cleanLines_skip_all {rest : List (List Char)}
    (h : ∀ l ∈ rest, kwVendorEnd.isSuffixOf (pyStrip l) = false) :
    cleanLines rest true = [] ∧ cleanState rest true = true := by
  induction rest with
  | nil => exact ⟨rfl, rfl⟩
  | cons x r ih =>
    have hx := cleanLine_skip_stay (h x (by simp))
    obtain ⟨h1, h2⟩ := ih fun l hl => h l (List.mem_cons_of_mem _ hl)
    refine ⟨?_, ?_⟩
    · simp only [cleanLines, hx]
      exact h1
    · simp only [cleanState, hx]
      exact h2

theorem cleanLines_append (a b : List (List Char)) (s : Bool) :
    cleanLines (a ++ b) s = cleanLines a s ++ cleanLines b (cleanState a s) := by
  induction a generalizing s with
  | nil => rfl
  | cons x rest ih =>
    rcases hc : cleanLine s x with ⟨s2, o⟩
    cases o with
    | none =>
      simp only [List.cons_append, cleanLines, cleanState, hc]
      exact ih s2
    | some out =>
      simp only [List.cons_append, cleanLines, cleanState, hc]
      exact congrArg (out :: ·) (ih s2)

theorem cleanState_append (a b : List (List Char)) (s : Bool) :
    cleanState (a ++ b) s = cleanState b (cleanState a s) := by
  induction a generalizing s with
  | nil => rfl
  | cons x rest ih =>
    simp only [List.cons_append, cleanState]
    exact ih _

/-- Claim C10: when an opener line (trimmed form starts with `/*!`, does not
end with `*/;`) is met outside a block and no later line ends with `*/;`,
then the opener and every following line are silently dropped, and
`clean_ddl` still produces the cleaned prefix (it is a total function — no
error is signalled). -/
theorem claimC10_unterminated_skip_block (pre rest : List (List Char)) (opener : List Char)
    (hpre : cleanState pre false = false)
    (hv : kwVendor.isPrefixOf (pyStrip opener) = true)
    (he : kwVendorEnd.isSuffixOf (pyStrip opener) = false)
    (hrest : ∀ l ∈ rest, kwVendorEnd.isSuffixOf (pyStrip l) = false) :
    clean_ddl (pre ++ opener :: rest) = clean_ddl pre := by
  show cleanLines (pre ++ opener :: rest) false = cleanLines pre false
  rw [cleanLines_append, hpre]
  have h1 : cleanLines (opener :: rest) false = [] := by
    simp only [cleanLines, cleanLine_opener hv he]
    exact (cleanLines_skip_all hrest).1
  rw [h1, List.append_nil]

/-- Witness for C10 at a concrete document: the opener `/*!50001 CREATE VIEW`
swallows the rest of the file and the output is the cleaned prefix. -/
theorem claimC10_unterminated_skip_block_witness :
    clean_ddl ["CREATE TABLE t (x INT);\n".toList,
        "/*!50001 CREATE VIEW v AS\n".toList, "SELECT 1\n".toList, "FROM t\n".toList]
      = clean_ddl ["CREATE TABLE t (x INT);\n".toList]
    ∧ clean_ddl ["CREATE TABLE t (x INT);\n".toList]
      = ["CREATE TABLE t (x INT);\n".toList] := by
  refine ⟨claimC10_unterminated_skip_block ["CREATE TABLE t (x INT);\n".toList]
    ["SELECT 1\n".toList, "FROM t\n".toList] "/*!50001 CREATE VIEW v AS\n".toList
    (by decide) (by decide) (by decide) (by decide), by decide⟩

/-- Claim C2 (counterexample): for the document `/*!50001 CREATE VIEW v AS`,
`SET x */;`, `hello` the closing line Ln = `SET x */;` (the first subsequent
line whose trimmed form ends with `*/;`) matches the `SET ` drop rule, which
fires before the skip-exit test: the skip state is NOT exited at Ln, and the
line `hello` after Ln is swallowed instead of being preserved — the claim
predicts output `hello` but the output is empty. -/
theorem claimC2_counterexample :
    clean_ddl ["/*!50001 CREATE VIEW v AS\n".toList, "SET x */;\n".toList,
        "hello\n".toList] = []
    ∧ cleanState ["/*!50001 CREATE VIEW v AS\n".toList, "SET x */;\n".toList,
        "hello\n".toList] false = true
    ∧ clean_ddl ["/*!50001 CREATE VIEW v AS\n".toList, "SET x */;\n".toList,
        "hello\n".toList] ≠ ["hello\n".toList] := by
  refine ⟨by decide, by decide, by decide⟩

/-- Claim C2 (amended): for a multi-line vendor directive spanning
`opener :: mid ++ [ln]` — the opener starts with `/*!` and does not end with
`*/;`, no line of `mid` ends with `*/;`, and `ln` is the first subsequent
line whose trimmed form ends with `*/;` — all these lines are absent from
the output and lines before and after are processed by the ordinary rules in
order, PROVIDED the closing line `ln` is not itself caught by an earlier
drop rule (its trimmed form does not start with `/*!`, `SET `, `--`,
`CONSTRAINT`, `UNIQUE KEY`, `PRIMARY KEY`, `FULLTEXT KEY`, or `KEY `); in
that case the skip state is exited at `ln`. -/
theorem claimC2_amended (pre mid post : List (List Char)) (opener ln : List Char)
    (hpre : cleanState pre false = false)
    (hv : kwVendor.isPrefixOf (pyStrip opener) = true)
    (hoe : kwVendorEnd.isSuffixOf (pyStrip opener) = false)
    (hmid : ∀ l ∈ mid, kwVendorEnd.isSuffixOf (pyStrip l) = false)
    (hln : kwVendorEnd.isSuffixOf (pyStrip ln) = true)
    (h1 : kwVendor.isPrefixOf (pyStrip ln) = false)
    (h2 : kwSet.isPrefixOf (pyStrip ln) = false)
    (h3 : kwDash.isPrefixOf (pyStrip ln) = false)
    (h4 : kwConstraint.isPrefixOf (pyStrip ln) = false)
    (h5 : kwUnique.isPrefixOf (pyStrip ln) = false)
    (h6 : kwPrimary.isPrefixOf (pyStrip ln) = false)
    (h7 : kwFulltext.isPrefixOf (pyStrip ln) = false)
    (h8 : kwKey.isPrefixOf (pyStrip ln) = false) :
    clean_ddl (pre ++ opener :: mid ++ ln :: post) = clean_ddl pre ++ clean_ddl post := by
  show cleanLines ((pre ++ opener :: mid) ++ ln :: post) false
      = cleanLines pre false ++ cleanLines post false
  rw [cleanLines_append, cleanLines_append, hpre, cleanState_append, hpre]
  have hblock : cleanLines (opener :: mid) false = [] := by
    simp only [cleanLines, cleanLine_opener hv hoe]
    exact (cleanLines_skip_all hmid).1
  have hstate : cleanState (opener :: mid) false = true := by
    simp only [cleanState, cleanLine_opener hv hoe]
    exact (cleanLines_skip_all hmid).2
  rw [hblock, hstate, List.append_nil]
  have hexit : cleanLine true ln = (false, none) := by
    apply cleanLine_skip_exit _ hln
    simp only [dropEarly, dropKeys, Bool.or_eq_false_iff]
    exact ⟨⟨⟨⟨by rw [h1]; simp, h2⟩, h3⟩, ⟨⟨⟨h4, h5⟩, h6⟩, h7⟩, h8⟩, h1⟩
  simp only [cleanLines, hexit]

/-- Witness for the amended C2 at a concrete document: the whole vendor block
is removed, the closing line exits the skip state, and the lines before and
after the block survive in order. -/
theorem claimC2_amended_witness :
    clean_ddl ["a INT,\n".toList, "/*!50001 CREATE VIEW v AS\n".toList,
        "SELECT 1\n".toList, "FROM t */;\n".toList, "b INT,\n".toList]
      = clean_ddl ["a INT,\n".toList] ++ clean_ddl ["b INT,\n".toList]
    ∧ clean_ddl ["a INT,\n".toList] ++ clean_ddl ["b INT,\n".toList]
      = ["a INT,\n".toList, "b INT,\n".toList] := by
  have h := claimC2_amended ["a INT,\n".toList] ["SELECT 1\n".toList] ["b INT,\n".toList]
    "/*!50001 CREATE VIEW v AS\n".toList "FROM t */;\n".toList
    (by decide) (by decide) (by decide) (by decide) (by decide) (by decide) (by decide)
    (by decide) (by decide) (by decide) (by decide) (by decide) (by decide)
  exact ⟨h, by decide⟩

theorem rewriteLine_id_of_none {l : List Char}
    (hE : pyFind kwEngine l = none) (hG : pyFind kwGenerated l = none)
    (hN : pyFind kwEnumOpen l = none) (hS : pyFind kwSetOpen l = none) :
    rewriteLine l = l := by
  rw [rewriteLine, engineRewrite_none hE, generatedRewrite_none hG, enumRewrite,
    parenTypeRewrite_no_occ hN, setRewrite]
  exact parenTypeRewrite_no_occ hS

theorem cleanLine_false_emit {l : List Char}
    (hd : (dropEarly (pyStrip l) || dropKeys (pyStrip l)) = false)
    (hv : kwVendor.isPrefixOf (pyStrip l) = false) :
    cleanLine false l = (false, some (rewriteLine l)) := by
  rw [cleanLine_false_eq, if_neg (by simp [hd]), if_neg (by simp [hv])]

/-- Claim C9: the drop rules are case-sensitive.  A line whose trimmed form
begins with a lowercase spelling of a drop keyword (`constraint`,
`primary key`, `unique key`, `key `, `set `) matches none of the drop rules,
and absent any rewrite trigger (`ENGINE=`, `GENERATED`, `enum(`, `set(`) it
is copied through to the output unchanged, leaving the state alone. -/
theorem claimC9_lowercase_keywords_survive (l : List Char)
    (hlc : "constraint".toList <+: pyStrip l ∨ "primary key".toList <+: pyStrip l ∨
      "unique key".toList <+: pyStrip l ∨ "key ".toList <+: pyStrip l ∨
      "set ".toList <+: pyStrip l)
    (hE : pyFind kwEngine l = none) (hG : pyFind kwGenerated l = none)
    (hN : pyFind kwEnumOpen l = none) (hS : pyFind kwSetOpen l = none) :
    cleanLine false l = (false, some l) := by
  have hhead : ∃ a p, (a :: p) <+: pyStrip l ∧ a ≠ '/' ∧ a ≠ 'S' ∧ a ≠ '-' ∧ a ≠ 'C'
      ∧ a ≠ 'U' ∧ a ≠ 'P' ∧ a ≠ 'F' ∧ a ≠ 'K' := by
    rcases hlc with h | h | h | h | h
    · exact ⟨'c', "onstraint".toList, h, by decide, by decide, by decide, by decide,
        by decide, by decide, by decide, by decide⟩
    · exact ⟨'p', "rimary key".toList, h, by decide, by decide, by decide, by decide,
        by decide, by decide, by decide, by decide⟩
    · exact ⟨'u', "nique key".toList, h, by decide, by decide, by decide, by decide,
        by decide, by decide, by decide, by decide⟩
    · exact ⟨'k', "ey ".toList, h, by decide, by decide, by decide, by decide,
        by decide, by decide, by decide, by decide⟩
    · exact ⟨'s', "et ".toList, h, by decide, by decide, by decide, by decide,
        by decide, by decide, by decide, by decide⟩
  rcases hhead with ⟨a, p, hp, hne1, hne2, hne3, hne4, hne5, hne6, hne7, hne8⟩
  have hv : kwVendor.isPrefixOf (pyStrip l) = false :=
    isPrefixOf_false_of_heads hp (Ne.symm hne1)
  have hd : (dropEarly (pyStrip l) || dropKeys (pyStrip l)) = false := by
    simp only [dropEarly, dropKeys, Bool.or_eq_false_iff]
    exact ⟨⟨⟨by rw [hv]; simp, isPrefixOf_false_of_heads hp (Ne.symm hne2)⟩,
      isPrefixOf_false_of_heads hp (Ne.symm hne3)⟩,
      ⟨⟨⟨isPrefixOf_false_of_heads hp (Ne.symm hne4),
      isPrefixOf_false_of_heads hp (Ne.symm hne5)⟩,
      isPrefixOf_false_of_heads hp (Ne.symm hne6)⟩,
      isPrefixOf_false_of_heads hp (Ne.symm hne7)⟩,
      isPrefixOf_false_of_heads hp (Ne.symm hne8)⟩
  rw [cleanLine_false_emit hd hv, rewriteLine_id_of_none hE hG hN hS]

/-- Witness for C9: a lowercase `constraint ...` column-style line passes
through `cleanLine` untouched. -/
theorem claimC9_witness :
    cleanLine false "  constraint fk foreign key (a) references b(a),\n".toList
      = (false, some "  constraint fk foreign key (a) references b(a),\n".toList) :=
  claimC9_lowercase_keywords_survive _ (Or.inl (by decide)) (by decide) (by decide)
    (by decide) (by decide)

/-- Claim C4: for a column line containing `enum(` whose balanced closing
parenthesis exists on the line (found by `find_closing_parenthesis`, so
commas and nested parentheses inside the member list do not end the scan
early), and which no drop rule or other rewrite touches, the Cleaner outputs
the line truncated immediately after that closing parenthesis with `",\n"`
appended. -/
theorem claimC4_enum_truncation (l : List Char) (s e : Nat)
    (hd : (dropEarly (pyStrip l) || dropKeys (pyStrip l)) = false)
    (hv : kwVendor.isPrefixOf (pyStrip l) = false)
    (hE : pyFind kwEngine l = none) (hG : pyFind kwGenerated l = none)
    (hfind : pyFind kwEnumOpen l = some s)
    (hclose : find_closing_parenthesis l s = some e)
    (hset : pyFind kwSetOpen (l.take (e + 1) ++ [',', '\n']) = none) :
    cleanLine false l = (false, some (l.take (e + 1) ++ [',', '\n'])) := by
  rw [cleanLine_false_emit hd hv, rewriteLine, engineRewrite_none hE,
    generatedRewrite_none hG, enumRewrite, parenTypeRewrite_close hfind hclose,
    setRewrite, parenTypeRewrite_no_occ hset]

/-- Witness for C4: the exemplar `name enum('a','b','c') NOT NULL,` becomes
`name enum('a','b','c'),` — the commas inside the member list do not end the
balanced scan early. -/
theorem claimC4_witness :
    cleanLine false "name enum('a','b','c') NOT NULL,\n".toList
      = (false, some ("name enum('a','b','c') NOT NULL,\n".toList.take (21 + 1)
          ++ [',', '\n']))
    ∧ "name enum('a','b','c') NOT NULL,\n".toList.take (21 + 1) ++ [',', '\n']
      = "name enum('a','b','c'),\n".toList := by
  have h := claimC4_enum_truncation "name enum('a','b','c') NOT NULL,\n".toList 5 21
    (by decide) (by decide) (by decide) (by decide) (by decide) (by decide) (by decide)
  exact ⟨h, by decide⟩

/-- Claim C5 (counterexample): the line `  CONSTRAINT c ENGINE=x` contains
`ENGINE=`, yet the Cleaner's output contains no line at all: the CONSTRAINT
drop rule removes the line, so "every line containing ENGINE= yields a
truncated output line" is false as stated. -/
theorem claimC5_counterexample :
    (pyFind kwEngine "  CONSTRAINT c ENGINE=x\n".toList).isSome = true
    ∧ clean_ddl ["  CONSTRAINT c ENGINE=x\n".toList] = [] := by
  refine ⟨by decide, by decide⟩

/-- Claim C5 (amended): for a line containing `ENGINE=` that survives the
drop rules, is processed outside a skip block, and whose truncated result
triggers no further rewrite (`GENERATED`, `enum(`, `set(`), the output line
is exactly the text before the first `ENGINE=` with trailing spaces, commas
and newlines stripped, followed by `";\n"`. -/
theorem claimC5_engine_truncation (l : List Char) (i : Nat)
    (hd : (dropEarly (pyStrip l) || dropKeys (pyStrip l)) = false)
    (hv : kwVendor.isPrefixOf (pyStrip l) = false)
    (hfind : pyFind kwEngine l = some i)
    (hG : pyFind kwGenerated (pyRstripOn isSep (l.take i) ++ [';', '\n']) = none)
    (hN : pyFind kwEnumOpen (pyRstripOn isSep (l.take i) ++ [';', '\n']) = none)
    (hS : pyFind kwSetOpen (pyRstripOn isSep (l.take i) ++ [';', '\n']) = none) :
    cleanLine false l = (false, some (pyRstripOn isSep (l.take i) ++ [';', '\n'])) := by
  rw [cleanLine_false_emit hd hv, rewriteLine, engineRewrite_some hfind,
    generatedRewrite_none hG, enumRewrite, parenTypeRewrite_no_occ hN, setRewrite,
    parenTypeRewrite_no_occ hS]

/-- Witness for the amended C5: the exemplar CREATE TABLE closing line
`) ENGINE=InnoDB DEFAULT CHARSET=utf8;` becomes `);`. -/
theorem claimC5_witness :
    cleanLine false ") ENGINE=InnoDB DEFAULT CHARSET=utf8;\n".toList
      = (false, some (pyRstripOn isSep
          (") ENGINE=InnoDB DEFAULT CHARSET=utf8;\n".toList.take 2) ++ [';', '\n']))
    ∧ pyRstripOn isSep (") ENGINE=InnoDB DEFAULT CHARSET=utf8;\n".toList.take 2)
        ++ [';', '\n'] = ");\n".toList := by
  have h := claimC5_engine_truncation ") ENGINE=InnoDB DEFAULT CHARSET=utf8;\n".toList 2
    (by decide) (by decide) (by decide) (by decide) (by decide) (by decide)
  exact ⟨h, by decide⟩

/-- Claim C6 (counterexample): the line `KEY k (enum('a'` contains `enum(`
with no matching closing parenthesis, but the Cleaner does not append it
unmodified: the `KEY ` drop rule removes it, so "every such line is left
unmodified and appended" is false as stated. -/
theorem claimC6_counterexample :
    pyFind kwEnumOpen "KEY k (enum('a'\n".toList = some 7
    ∧ find_closing_parenthesis "KEY k (enum('a'\n".toList 7 = none
    ∧ clean_ddl ["KEY k (enum('a'\n".toList] = [] := by
  refine ⟨by decide, by decide, by decide⟩

/-- Claim C6 (amended): a line containing `enum(` or `set(` for which the
balanced-parenthesis scan finds no closing parenthesis, and which survives
the drop rules and triggers no other rewrite, is appended to the output
unmodified; no error is raised (the function is total). -/
theorem claimC6_unbalanced_left_alone (l : List Char)
    (hd : (dropEarly (pyStrip l) || dropKeys (pyStrip l)) = false)
    (hv : kwVendor.isPrefixOf (pyStrip l) = false)
    (hE : pyFind kwEngine l = none) (hG : pyFind kwGenerated l = none)
    (henum : ∀ s, pyFind kwEnumOpen l = some s → find_closing_parenthesis l s = none)
    (hset : ∀ s, pyFind kwSetOpen l = some s → find_closing_parenthesis l s = none)
    (_hsome : (pyFind kwEnumOpen l).isSome = true ∨ (pyFind kwSetOpen l).isSome = true) :
    cleanLine false l = (false, some l) := by
  rw [cleanLine_false_emit hd hv, rewriteLine, engineRewrite_none hE,
    generatedRewrite_none hG]
  have hN : enumRewrite l = l := by
    rw [enumRewrite]
    cases hf : pyFind kwEnumOpen l with
    | none => exact parenTypeRewrite_no_occ hf
    | some s => exact parenTypeRewrite_noClose hf (henum s hf)
  have hS : setRewrite l = l := by
    rw [setRewrite]
    cases hf : pyFind kwSetOpen l with
    | none => exact parenTypeRewrite_no_occ hf
    | some s => exact parenTypeRewrite_noClose hf (hset s hf)
  rw [hN, hS]

/-- Witness for the amended C6: a column line with an unterminated enum list
passes through unchanged. -/
theorem claimC6_witness :
    cleanLine false "  status enum('a','b'\n".toList
      = (false, some "  status enum('a','b'\n".toList) := by
  apply claimC6_unbalanced_left_alone "  status enum('a','b'\n".toList
    (by decide) (by decide) (by decide) (by decide)
  · intro s hs
    rw [(by decide : pyFind kwEnumOpen "  status enum('a','b'\n".toList = some 9)] at hs
    injection hs with h
    subst h
    decide
  · intro s hs
    rw [(by decide : pyFind kwSetOpen "  status enum('a','b'\n".toList = none)] at hs
    cases hs
  · exact Or.inl (by decide)

/-- Claim C7: export_mysql_schema (modelled over the observable result of
the single mysqldump invocation): a non-zero exit status makes it print the
diagnostic header plus the captured stderr and terminate the run with exit
status 1; a zero exit status makes the output file hold the process stdout
verbatim and prints the confirmation message. -/
theorem claimC7_export_error_handling (f : List Char) (r : ProcResult) :
    (r.exitCode ≠ 0 → export_mysql_schema f r
      = .fatal ("Error exporting schema:\n".toList ++ r.procStderr) 1)
    ∧ (r.exitCode = 0 → export_mysql_schema f r
      = .success r.procStdout ("Schema exported to ".toList ++ f)) := by
  constructor
  · intro h
    rw [export_mysql_schema, subprocessRun, if_neg h]
  · intro h
    rw [export_mysql_schema, subprocessRun, if_pos h]

/-- Witness for C7 at a failing run (exit status 2, stderr `boom`) and a
successful run. -/
theorem claimC7_witness :
    export_mysql_schema "schema.sql".toList ⟨2, [], "boom".toList⟩
      = .fatal ("Error exporting schema:\n".toList ++ "boom".toList) 1
    ∧ export_mysql_schema "schema.sql".toList ⟨0, "CREATE TABLE t (x INT);\n".toList, []⟩
      = .success "CREATE TABLE t (x INT);\n".toList
          ("Schema exported to ".toList ++ "schema.sql".toList) :=
  ⟨(claimC7_export_error_handling "schema.sql".toList ⟨2, [], "boom".toList⟩).1 (by decide),
   (claimC7_export_error_handling "schema.sql".toList
      ⟨0, "CREATE TABLE t (x INT);\n".toList, []⟩).2 rfl⟩

/-- Claim C8: adjust_type_mappings maps `tinyint(1)` to `bool` and `enum` to
`str` in the generator's global type-mapping table, and leaves every other
key of the table unchanged. -/
theorem claimC8_adjust_type_mappings (m : List Char → Option (List Char)) :
    adjust_type_mappings m ("tinyint(1)".toList) = some ("bool".toList)
    ∧ adjust_type_mappings m ("enum".toList) = some ("str".toList)
    ∧ ∀ k, k ≠ "tinyint(1)".toList → k ≠ "enum".toList →
        adjust_type_mappings m k = m k := by
  refine ⟨?_, ?_, ?_⟩
  · simp [adjust_type_mappings, dictUpdate]
  · simp [adjust_type_mappings, dictUpdate]
  · intro k h1 h2
    simp only [adjust_type_mappings, dictUpdate]
    rw [if_neg h2, if_neg h1]

/-- Witness for C8 on a sample one-entry table: both overrides land and the
unrelated key `int` keeps its old value. -/
theorem claimC8_witness :
    adjust_type_mappings (fun k => if k = "int".toList then some ("integer".toList)
        else none) ("tinyint(1)".toList) = some ("bool".toList)
    ∧ adjust_type_mappings (fun k => if k = "int".toList then some ("integer".toList)
        else none) ("enum".toList) = some ("str".toList)
    ∧ adjust_type_mappings (fun k => if k = "int".toList then some ("integer".toList)
        else none) ("int".toList)
      = (fun k => if k = "int".toList then some ("integer".toList) else none)
          ("int".toList) := by
  obtain ⟨ha, hb, hc⟩ := claimC8_adjust_type_mappings
    (fun k => if k = "int".toList then some ("integer".toList) else none)
  exact ⟨ha, hb, hc ("int".toList) (by decide) (by decide)⟩

end DDL
